import Mathlib

/-!
Verification of the stub-colocation tool (`link.py`): a lexical filesystem
model, the root resolver, the two-pass stub colocator, and the driver's
top-level link step, embedded as executable Lean definitions.

Modelling conventions: a path is a list of name segments of an absolute
path; the filesystem is a finite map from paths to entries (regular file
with its text lines, directory, or symbolic link with its stored target).
Path resolution is lexical: a symbolic link is resolved by normalising the
stored target against the directory holding the link, and only leaf
entries are links (intermediate directory components are plain names).
Mutating operations are logged, and a run that hits an `os.symlink`
failure (an entry already present at the link path) stops there, carrying
the state reached so far and the failing placement.
-/

set_option maxHeartbeats 1000000

namespace RulesPy

/-- A filesystem path: the list of name segments of an absolute path. -/
abbrev Path := List String

/-- A segment is clean when it is a real name: nonempty and not a dot entry. -/
def cleanSeg (s : String) : Prop := s ≠ "" ∧ s ≠ "." ∧ s ≠ ".."

/-- A path is clean when all its segments are. -/
def CleanP (p : Path) : Prop := ∀ s ∈ p, cleanSeg s

/-- Stored target of a symbolic link: either an absolute path (as written by
the symlink-to-home written by the driver) or a path relative to the directory holding
the link (as written by stub synthesis). -/
inductive LinkTarget where
  | abs (p : Path)
  | rel (t : List String)
deriving DecidableEq

/-- A filesystem entry: a regular file (with its text lines), a directory,
or a symbolic link with its stored target. -/
inductive Entry where
  | file (content : List String)
  | dir
  | symlink (target : LinkTarget)
deriving DecidableEq

/-- A filesystem state: a finite association of paths to entries. -/
structure FS where
  entries : List (Path × Entry)
deriving DecidableEq

/-- Look up the entry stored at a path (no symlink following): `os.lstat`. -/
def FS.lookup (fs : FS) (p : Path) : Option Entry :=
  (fs.entries.find? (fun e => e.1 == p)).map (fun e => e.2)

/-- An entry is present at the path itself: `os.path.lexists`. -/
def FS.lexists (fs : FS) (p : Path) : Bool :=
  (fs.lookup p).isSome

/-- Create an entry at a path (callers guard on `lexists`). -/
def FS.insert (fs : FS) (p : Path) (e : Entry) : FS :=
  ⟨(p, e) :: fs.entries⟩

/-- Remove the entry at a path: `os.unlink`. -/
def FS.erase (fs : FS) (p : Path) : FS :=
  ⟨fs.entries.filter (fun e => !(e.1 == p))⟩

/-- One step of `os.path.normpath`: push a segment onto a normalised stack,
dropping `.` and empty segments and letting `..` pop (at the root, `..` is
dropped, as for absolute paths). -/
def normpathPush (stack : List String) (seg : String) : List String :=
  if seg = "" ∨ seg = "." then stack
  else if seg = ".." then stack.dropLast
  else stack ++ [seg]

/-- Lexical path normalisation, `os.path.normpath` on an absolute path. -/
def normpath (p : Path) : Path := p.foldl normpathPush []

/-- The absolute path a symbolic link at `p` with stored target `t` points
at, resolved lexically against the directory holding the link. -/
def linkDest (p : Path) (t : LinkTarget) : Path :=
  match t with
  | .abs q => normpath q
  | .rel r => normpath (p.dropLast ++ r)

/-- Fuel-bounded stat: follow symbolic links at the final component; out of
fuel means an unresolvable chain (treated as nonexistent, like `ELOOP`). -/
def FS.statN : Nat → FS → Path → Option Entry
  | 0, _, _ => none
  | n + 1, fs, p =>
    match fs.lookup p with
    | some (.symlink t) => FS.statN n fs (linkDest p t)
    | e => e

/-- Full stat, `os.stat`: resolve with enough fuel to follow any acyclic chain. -/
def FS.stat (fs : FS) (p : Path) : Option Entry :=
  FS.statN (fs.entries.length + 1) fs p

/-- Existence test, `os.path.exists`: the path resolves to an existing entry. -/
def pathExists (fs : FS) (p : Path) : Bool := (fs.stat p).isSome

/-- Regular-file test, `os.path.isfile`: the path resolves to a regular file. -/
def isfile (fs : FS) (p : Path) : Bool :=
  match fs.stat p with
  | some (.file _) => true
  | _ => false

/-- Directory test, `os.path.isdir`: the path resolves to a directory. -/
def isdir (fs : FS) (p : Path) : Bool :=
  match fs.stat p with
  | some .dir => true
  | _ => false

/-- String test for `str.startswith`. -/
def strStarts (s t : String) : Bool := s.data.take t.data.length == t.data

/-- String test for `str.endswith`. -/
def strEnds (s t : String) : Bool := s.data.reverse.take t.data.length == t.data.reverse

/-- Python string slicing `s[:-1]`: drop the last character. -/
def strDrop1 (s : String) : String := ⟨s.data.dropLast⟩

/-- Whitespace stripping, `str.strip`: drop leading and trailing whitespace. -/
def strTrim (s : String) : String :=
  ⟨((s.data.dropWhile Char.isWhitespace).reverse.dropWhile Char.isWhitespace).reverse⟩

/-- Is the string empty (`not line` on a string)? -/
def strIsEmpty (s : String) : Bool := s.data.isEmpty

/-- Helper for splitting at slashes: accumulate the current segment. -/
def splitAux : List Char → List Char → List String
  | [], cur => [⟨cur.reverse⟩]
  | c :: rest, cur =>
    if c = '/' then (⟨cur.reverse⟩ : String) :: splitAux rest []
    else splitAux rest (c :: cur)

/-- Split a textual path into segments at slashes. -/
def splitSegs (s : String) : List String := splitAux s.data []

/-- Drop the longest common leading run of segments from both paths. -/
def dropCommon : Path → Path → Path × Path
  | a :: as, b :: bs => if a = b then dropCommon as bs else (a :: as, b :: bs)
  | as, bs => (as, bs)

/-- Relative path computation, `os.path.relpath target start`, on absolute segment lists: climb out of
what remains of `start` after removing the common run, then descend into
what remains of `target`. -/
def relpathSegs (target : Path) (s : Path) : List String :=
  List.replicate (dropCommon target s).2.length ".." ++ (dropCommon target s).1

/-- Test whether `r` is a (not necessarily proper) lexical ancestor of `p`. -/
def isUnder (r p : Path) : Bool := p.take r.length == r

/-- The final segment of the path names a `.pyi` file. -/
def lastSegPyi (p : Path) : Bool := strEnds (p.getLastD "") ".pyi"

/-- The `os.walk` scan of one root in the index-build pass: every non-directory
entry strictly below the root whose name ends in `.pyi`, in store order. -/
def walkPyi (fs : FS) (root : Path) : List Path :=
  fs.entries.filterMap (fun e =>
    match e.2 with
    | .dir => none
    | _ =>
      if isUnder root e.1 && decide (root.length < e.1.length) && lastSegPyi e.1
      then some e.1 else none)

/-- Lookup in the stub index (a Python dict as an association list). -/
def alook (m : List (Path × Path)) (k : Path) : Option Path :=
  (m.find? (fun e => e.1 == k)).map (fun e => e.2)

/-- Dictionary insertion, `pyi_sources.setdefault(rel_path, abs_path)`: insert the root-relative
path of one walked stub file, keeping any earlier insertion. -/
def setdefaultIns (root : Path) (m : List (Path × Path)) (ab : Path) : List (Path × Path) :=
  if (alook m (relpathSegs ab root)).isSome then m
  else m ++ [(relpathSegs ab root, ab)]

/-- Indexing the stubs of one root: for each walked `.pyi` file, insert its
root-relative path with `dict.setdefault` semantics (first insertion wins). -/
def pyiIndexStep (fs : FS) (acc : List (Path × Path)) (root : Path) : List (Path × Path) :=
  (walkPyi fs root).foldl (setdefaultIns root) acc

/-- The index-build pass: fold the per-root indexing over the roots in order,
producing the `pyi_sources` mapping from relative stub path to the absolute
path of the chosen stub source. -/
def pyi_sources (fs : FS) (roots : List Path) : List (Path × Path) :=
  roots.foldl (pyiIndexStep fs) []

/-- Sibling path computation, `rel_py = rel_pyi[:-1]`: the sibling source path of a relative stub path,
obtained by dropping the final character (`.pyi` becomes `.py`). -/
def relPyOf (rel : Path) : Path :=
  match rel with
  | [] => []
  | _ => rel.dropLast ++ [strDrop1 (rel.getLastD "")]

/-- A placement task: one (relative stub path, chosen stub source, root)
triple considered by the synthesis pass. -/
structure Task where
  rel : Path
  src : Path
  root : Path
deriving DecidableEq

/-- A logged filesystem mutation. -/
inductive Op where
  | symlinkOp (path : Path) (target : LinkTarget)
  | unlinkOp (path : Path)
deriving DecidableEq

/-- The placement tasks of the synthesis pass, in iteration order: for each
index entry in insertion order, one task per root in root order. -/
def tasksOf (index : List (Path × Path)) (roots : List Path) : List Task :=
  index.foldl (fun acc e => acc ++ roots.map (fun r => ⟨e.1, e.2, r⟩)) []

/-- One placement: if the root has the sibling `.py` file (resolved stat) and
nothing resolves at the stub path, create a relative symlink to the chosen
source; `os.symlink` fails (`none`) when an entry is already present at the
link path itself (a broken link there passes the `exists` test yet blocks
creation). -/
def stepTask (fs : FS) (t : Task) : Option (FS × List Op) :=
  if isfile fs (t.root ++ relPyOf t.rel) && !(pathExists fs (t.root ++ t.rel)) then
    if fs.lexists (t.root ++ t.rel) then none
    else
      some (fs.insert (t.root ++ t.rel)
              (.symlink (.rel (relpathSegs t.src (t.root ++ t.rel).dropLast))),
            [Op.symlinkOp (t.root ++ t.rel)
              (.rel (relpathSegs t.src (t.root ++ t.rel).dropLast))])
  else some (fs, [])

/-- The synthesis pass over a task list: run placements in order, stopping at
the first failing one (the exception propagates); returns the final state,
the log of performed mutations, and the failing task if any. -/
def runTasks : FS → List Task → FS × List Op × Option Task
  | fs, [] => (fs, [], none)
  | fs, t :: ts =>
    match stepTask fs t with
    | none => (fs, [], some t)
    | some (fs1, ops) =>
      ((runTasks fs1 ts).1, ops ++ (runTasks fs1 ts).2.1, (runTasks fs1 ts).2.2)

/-- Join, `os.path.join`, of the site directory with one line of the `.pth` file
(an absolute line overrides the base, as in Python). -/
def joinPath (base : Path) (line : String) : Path :=
  if strStarts line "/" then splitSegs line else base ++ splitSegs line

/-- The root-resolution loop over the `.pth` lines, as written in the source:
strip, skip blanks and comments, join and lexically normalise, keep only
currently existing directories, in line order. -/
def pth_roots_of (fs : FS) (site_dir : Path) (ls : List String) : List Path :=
  ls.foldl
    (fun acc line =>
      if strIsEmpty (strTrim line) || strStarts (strTrim line) "#" then acc
      else
        if isdir fs (normpath (joinPath site_dir (strTrim line)))
        then acc ++ [normpath (joinPath site_dir (strTrim line))] else acc)
    []

/-- The description, in the words of the spec, of root resolution, one line at a time: a
non-blank, non-comment line is joined to the containing directory,
normalised lexically, and kept only if it is an existing directory. -/
def keepLine (fs : FS) (site_dir : Path) (line : String) : Option Path :=
  if strIsEmpty (strTrim line) || strStarts (strTrim line) "#" then none
  else
    if isdir fs (normpath (joinPath site_dir (strTrim line)))
    then some (normpath (joinPath site_dir (strTrim line))) else none

/-- The declarative form, in the words of the spec, of the resolver output: the kept
directories in line order. -/
def pthRootsSpec (fs : FS) (site_dir : Path) (ls : List String) : List Path :=
  ls.filterMap (keepLine fs site_dir)

/-- Does a path match the glob pattern `home/lib/python*/site-packages`? -/
def matchSiteDir (home p : Path) : Bool :=
  (p.take home.length == home) &&
    match p.drop home.length with
    | [a, b, c] => a == "lib" && strStarts b "python" && c == "site-packages"
    | _ => false

/-- The `glob.glob` match list for the package-installation directory, in
directory-enumeration (store) order. -/
def site_dirs_of (fs : FS) (home : Path) : List Path :=
  fs.entries.filterMap (fun e => if matchSiteDir home e.1 then some e.1 else none)

/-- The colocation pipeline from a chosen site directory: read the
site-configuration file (absent or non-file means nothing to do), resolve
the roots (none means nothing to do), then index and synthesise. -/
def colocateAt (fs : FS) (site_dir : Path) : FS × List Op × Option Task :=
  match fs.stat (site_dir ++ ["_aspect.pth"]) with
  | some (.file ls) =>
    if (pth_roots_of fs site_dir ls).isEmpty then (fs, [], none)
    else runTasks fs
      (tasksOf (pyi_sources fs (pth_roots_of fs site_dir ls)) (pth_roots_of fs site_dir ls))
  | _ => (fs, [], none)

/-- Top-level colocation, `colocate_pyi_stubs`: locate the package-installation directory beneath
the environment home (no match means nothing to do; only the first match is
consulted) and run the pipeline from it. -/
def colocate_pyi_stubs (fs : FS) (home : Path) : FS × List Op × Option Task :=
  match site_dirs_of fs home with
  | [] => (fs, [], none)
  | d :: _ => colocateAt fs d

/-- Link step of the driver: if the destination resolves and is a symlink
whose stored target equals the environment home, do nothing; otherwise
unlink whatever is there (failing, `none`, on a directory, which
`Path.unlink` cannot remove) and create a fresh symlink to the home. -/
def link_main (fs : FS) (dest home : Path) : Option (FS × List Op) :=
  if pathExists fs dest && (fs.lookup dest == some (.symlink (.abs home))) then
    some (fs, [])
  else
    match fs.lookup dest with
    | some .dir => none
    | some _ =>
      some ((fs.erase dest).insert dest (.symlink (.abs home)),
        [Op.unlinkOp dest, Op.symlinkOp dest (.abs home)])
    | none => some (fs.insert dest (.symlink (.abs home)), [Op.symlinkOp dest (.abs home)])

/-- Is this entry a symbolic link? -/
def isLink : Entry → Bool
  | .symlink _ => true
  | _ => false

/-- No entry of the filesystem is a symbolic link. -/
def SymFree (fs : FS) : Prop := ∀ e ∈ fs.entries, isLink e.2 = false

/-- Every stored path is clean. -/
def CleanFS (fs : FS) : Prop := ∀ e ∈ fs.entries, CleanP e.1

/-- The store holds at most one entry per path (a real filesystem always
does). -/
def UniqKeys (fs : FS) : Prop :=
  ∀ a ∈ fs.entries, ∀ b ∈ fs.entries, a.1 = b.1 → a.2 = b.2

instance (s : String) : Decidable (cleanSeg s) :=
  inferInstanceAs (Decidable (s ≠ "" ∧ s ≠ "." ∧ s ≠ ".."))

instance (p : Path) : Decidable (CleanP p) :=
  inferInstanceAs (Decidable (∀ s ∈ p, cleanSeg s))

instance (fs : FS) : Decidable (SymFree fs) :=
  inferInstanceAs (Decidable (∀ e ∈ fs.entries, isLink e.2 = false))

instance (fs : FS) : Decidable (CleanFS fs) :=
  inferInstanceAs (Decidable (∀ e ∈ fs.entries, CleanP e.1))

instance (fs : FS) : Decidable (UniqKeys fs) :=
  inferInstanceAs (Decidable (∀ a ∈ fs.entries, ∀ b ∈ fs.entries, a.1 = b.1 → a.2 = b.2))

/-- State extension: `fs'` extends `fs` when whatever is stored somewhere in `fs` is still stored
there, unchanged, in `fs'`. -/
def Ext (fs fs' : FS) : Prop := ∀ p e, fs.lookup p = some e → fs'.lookup p = some e

/-- No root of the list sits strictly inside another root. -/
def NoNest (roots : List Path) : Prop :=
  ∀ r1 ∈ roots, ∀ r2 ∈ roots, isUnder r1 r2 = true → r1 = r2

instance (roots : List Path) : Decidable (NoNest roots) :=
  inferInstanceAs (Decidable (∀ r1 ∈ roots, ∀ r2 ∈ roots, isUnder r1 r2 = true → r1 = r2))

/-- A placement task is settled in a state: its guard can no longer fire. -/
def Done (fs : FS) (t : Task) : Prop :=
  isfile fs (t.root ++ relPyOf t.rel) = false ∨ pathExists fs (t.root ++ t.rel) = true

/-- Invariant of the synthesis pass over a symlink-free start state `fs0`:
the current state `fs1` stores everything `fs0` stored, and any path that
was empty in `fs0` is either still empty or holds a created stub link — a
relative symlink at a `.pyi`-named path resolving in one hop to a path that
was a regular file in `fs0`. -/
def Inv (fs0 fs1 : FS) : Prop :=
  (∀ p e, fs0.lookup p = some e → fs1.lookup p = some e) ∧
  (∀ p, fs0.lookup p = none →
    fs1.lookup p = none ∨
      (lastSegPyi p = true ∧ ∃ tl ab c, fs1.lookup p = some (.symlink (.rel tl)) ∧
        linkDest p (.rel tl) = ab ∧ fs0.lookup ab = some (.file c)))

/-- Side conditions the index-build pass guarantees for every task it
produces over a symlink-free state: the relative path is a nonempty clean
`.pyi` path, the chosen source is a clean path holding a regular file, and
the placement path is clean. -/
def TaskOk (fs0 : FS) (t : Task) : Prop :=
  t.rel ≠ [] ∧ lastSegPyi t.rel = true ∧
    (∃ c, fs0.lookup t.src = some (.file c)) ∧ CleanP t.src ∧ CleanP (t.root ++ t.rel)

/-! Concrete states used to evaluate the claims on explicit inputs. -/

/-- A two-root environment: `r1` has `pkg/x.py` with its stub, `r2` has only
`pkg/x.py`; the `.pth` file under the site directory names both roots. -/
def envFS : FS := ⟨[
  (["venv"], .dir),
  (["venv", "lib"], .dir),
  (["venv", "lib", "python3.11"], .dir),
  (["venv", "lib", "python3.11", "site-packages"], .dir),
  (["venv", "lib", "python3.11", "site-packages", "_aspect.pth"],
    .file ["../../../../r1", "# note", "", "../../../../r2"]),
  (["r1"], .dir),
  (["r1", "pkg"], .dir),
  (["r1", "pkg", "x.py"], .file []),
  (["r1", "pkg", "x.pyi"], .file ["stub"]),
  (["r2"], .dir),
  (["r2", "pkg"], .dir),
  (["r2", "pkg", "x.py"], .file [])
]⟩

/-- The two roots of `envFS`, in `.pth` line order. -/
def envRoots : List Path := [["r1"], ["r2"]]

/-- The task list the synthesis pass runs over `envFS`. -/
def envTasks : List Task := tasksOf (pyi_sources envFS envRoots) envRoots

/-- Nested-roots state: roots `r1`, `r0`, `a`, `a/b`; `r1` has `b/x.pyi`,
`r0` has `x.pyi`, and `a/b` has `x.py` without a stub. -/
def nestFS : FS := ⟨[
  (["r1"], .dir), (["r1", "b"], .dir), (["r1", "b", "x.pyi"], .file ["s1"]),
  (["r0"], .dir), (["r0", "x.pyi"], .file ["s0"]),
  (["a"], .dir), (["a", "b"], .dir), (["a", "b", "x.py"], .file [])
]⟩

/-- The root order for `nestFS`: the root `a` strictly contains the root `a/b`. -/
def nestRoots : List Path := [["r1"], ["r0"], ["a"], ["a", "b"]]

/-- The task list the synthesis pass runs over `nestFS`. -/
def nestTasks : List Task := tasksOf (pyi_sources nestFS nestRoots) nestRoots

/-- A state with a pre-existing broken symlink `r1/a.py` pointing at the
not-yet-existing `r1/b.pyi`; `r2` carries the stubs `a.pyi` and `b.pyi`,
and `r1` has the plain source `b.py`. -/
def brokenFS : FS := ⟨[
  (["r1"], .dir),
  (["r1", "a.py"], .symlink (.rel ["b.pyi"])),
  (["r1", "b.py"], .file []),
  (["r2"], .dir),
  (["r2", "a.pyi"], .file ["sa"]),
  (["r2", "b.pyi"], .file ["sb"])
]⟩

/-- The root order for `brokenFS`. -/
def brokenRoots : List Path := [["r1"], ["r2"]]

/-- The task list the synthesis pass runs over `brokenFS`. -/
def brokenTasks : List Task := tasksOf (pyi_sources brokenFS brokenRoots) brokenRoots

/-- A state whose `.pth` file names the same directory on two lines. -/
def dupFS : FS := ⟨[(["sp"], .dir), (["sp", "sub"], .dir)]⟩

/-- Three roots where both `r1` and `r2` carry `pkg/x.pyi` (with different
contents) and `r0` carries nothing. -/
def dupStubFS : FS := ⟨[
  (["r0"], .dir),
  (["r1"], .dir), (["r1", "pkg"], .dir), (["r1", "pkg", "x.pyi"], .file ["a"]),
  (["r2"], .dir), (["r2", "pkg"], .dir), (["r2", "pkg", "x.pyi"], .file ["b"])
]⟩

/-- The empty filesystem. -/
def emptyFS : FS := ⟨[]⟩

/-- A destination that is a plain directory, next to the environment home. -/
def dirDestFS : FS := ⟨[(["home"], .dir), (["dst"], .dir)]⟩

/-- A state with only the environment home, no entry at the destination. -/
def homeOnlyFS : FS := ⟨[(["home"], .dir)]⟩

/-- A state with a failing placement: `r/x.py` is a regular file and `r/x.pyi`
is a broken symlink, so `os.symlink` fails there; `r/y.py` with the stub
source `s/y.pyi` is a placement that would succeed afterwards. -/
def abortFS : FS := ⟨[
  (["r"], .dir),
  (["r", "x.py"], .file []),
  (["r", "x.pyi"], .symlink (.rel ["gone"])),
  (["r", "y.py"], .file []),
  (["s"], .dir),
  (["s", "x.pyi"], .file ["sx"]),
  (["s", "y.pyi"], .file ["sy"])
]⟩

/-- The placement that fails on `abortFS`. -/
def abortTask : Task := ⟨["x.pyi"], ["s", "x.pyi"], ["r"]⟩

/-- A placement that would succeed on `abortFS` if it were attempted. -/
def laterTask : Task := ⟨["y.pyi"], ["s", "y.pyi"], ["r"]⟩

/-- Two matching package-installation directories beneath one home, with
different `.pth` files; enumeration order lists `python3.10` first. -/
def twoSiteFS : FS := ⟨[
  (["venv"], .dir),
  (["venv", "lib"], .dir),
  (["venv", "lib", "python3.10"], .dir),
  (["venv", "lib", "python3.10", "site-packages"], .dir),
  (["venv", "lib", "python3.11"], .dir),
  (["venv", "lib", "python3.11", "site-packages"], .dir),
  (["venv", "lib", "python3.11", "site-packages", "_aspect.pth"], .file ["ignored"])
]⟩

/-! ### Store lemmas -/

theorem lookup_insert (fs : FS) (p : Path) (e : Entry) :
    (fs.insert p e).lookup p = some e := by
  simp [FS.insert, FS.lookup]

theorem lookup_insert_ne (fs : FS) {p q : Path} (e : Entry) (h : q ≠ p) :
    (fs.insert p e).lookup q = fs.lookup q := by
  simp only [FS.insert, FS.lookup, List.find?]
  have : ((p, e).1 == q) = false := by
    simp only [beq_eq_false_iff_ne]
    exact fun hc => h hc.symm
  simp [this]

theorem lookup_erase_ne (fs : FS) {p q : Path} (h : q ≠ p) :
    (fs.erase p).lookup q = fs.lookup q := by
  unfold FS.erase FS.lookup
  induction fs.entries with
  | nil => rfl
  | cons a l ih =>
    by_cases ha : a.1 = p
    · have h1 : (a.1 == p) = true := by simpa using ha
      have h2 : (a.1 == q) = false := by
        simp only [beq_eq_false_iff_ne]
        exact fun hc => h (hc.symm.trans ha)
      simp [List.filter_cons, h1, List.find?, h2]
      simpa using ih
    · have h1 : (a.1 == p) = false := by simpa using ha
      by_cases hq : a.1 = q
      · have h2 : (a.1 == q) = true := by simpa using hq
        simp [List.filter_cons, h1, List.find?, h2]
      · have h2 : (a.1 == q) = false := by simpa using hq
        simp only [List.filter_cons, h1, Bool.not_false, if_true, List.find?, h2]
        simpa using ih

theorem lookup_nil_entries {fs : FS} (h : fs.entries = []) (p : Path) :
    fs.lookup p = none := by
  simp [FS.lookup, h]

theorem entries_pos_of_lookup {fs : FS} {p : Path} {e : Entry}
    (h : fs.lookup p = some e) : 1 ≤ fs.entries.length := by
  rcases hl : fs.entries with _ | ⟨a, l⟩
  · rw [lookup_nil_entries hl] at h
    exact absurd h (by simp)
  · simp [hl]

theorem mem_entries_of_lookup {fs : FS} {p : Path} {e : Entry}
    (h : fs.lookup p = some e) : (p, e) ∈ fs.entries := by
  unfold FS.lookup at h
  rcases hf : fs.entries.find? (fun x => x.1 == p) with _ | a
  · rw [hf] at h
    simp at h
  · rw [hf] at h
    have hm := List.mem_of_find?_eq_some hf
    have hp := List.find?_some hf
    have : a.1 = p := by simpa using hp
    have : a = (p, e) := by
      rcases a with ⟨a1, a2⟩
      simp at h
      simp_all
    exact this ▸ hm

/-! ### Stat lemmas -/

theorem statN_succ (fs : FS) (n : Nat) (p : Path) :
    fs.statN (n + 1) p =
      match fs.lookup p with
      | some (.symlink t) => fs.statN n (linkDest p t)
      | e => e := rfl

theorem statN_lookup_none {fs : FS} {p : Path} (n : Nat)
    (h : fs.lookup p = none) : fs.statN (n + 1) p = none := by
  rw [statN_succ, h]

theorem statN_lookup_file {fs : FS} {p : Path} {c : List String} (n : Nat)
    (h : fs.lookup p = some (.file c)) : fs.statN (n + 1) p = some (.file c) := by
  rw [statN_succ, h]

theorem statN_lookup_dir {fs : FS} {p : Path} (n : Nat)
    (h : fs.lookup p = some .dir) : fs.statN (n + 1) p = some .dir := by
  rw [statN_succ, h]

theorem statN_lookup_symlink {fs : FS} {p : Path} {t : LinkTarget} (n : Nat)
    (h : fs.lookup p = some (.symlink t)) :
    fs.statN (n + 1) p = fs.statN n (linkDest p t) := by
  rw [statN_succ, h]

theorem stat_lookup_none {fs : FS} {p : Path} (h : fs.lookup p = none) :
    fs.stat p = none :=
  statN_lookup_none _ h

theorem stat_lookup_file {fs : FS} {p : Path} {c : List String}
    (h : fs.lookup p = some (.file c)) : fs.stat p = some (.file c) :=
  statN_lookup_file _ h

theorem stat_lookup_dir {fs : FS} {p : Path} (h : fs.lookup p = some .dir) :
    fs.stat p = some .dir :=
  statN_lookup_dir _ h

theorem stat_symlink_resolved {fs : FS} {p : Path} {t : LinkTarget} {e : Entry}
    (h1 : fs.lookup p = some (.symlink t))
    (h2 : fs.lookup (linkDest p t) = some e)
    (h3 : ∀ t', e ≠ .symlink t') : fs.stat p = some e := by
  have hlen := entries_pos_of_lookup h1
  unfold FS.stat
  rcases hn : fs.entries.length with _ | n
  · omega
  · rw [statN_lookup_symlink _ h1, statN_succ, h2]
    cases e with
    | file c => rfl
    | dir => rfl
    | symlink t' => exact absurd rfl (h3 t')

theorem statN_mono_fuel {fs : FS} {e : Entry} :
    ∀ {n m : Nat} {p : Path}, n ≤ m → fs.statN n p = some e → fs.statN m p = some e := by
  intro n
  induction n with
  | zero => intro m p _ h; exact absurd h (by simp [FS.statN])
  | succ k ih =>
    intro m p hle h
    rcases hm : m with _ | m'
    · omega
    · rcases hp : fs.lookup p with _ | f
      · rw [statN_lookup_none _ hp] at h; exact absurd h (by simp)
      · cases f with
        | file c => rw [statN_lookup_file _ hp] at h; rw [statN_lookup_file _ hp]; exact h
        | dir => rw [statN_lookup_dir _ hp] at h; rw [statN_lookup_dir _ hp]; exact h
        | symlink t =>
          rw [statN_lookup_symlink _ hp] at h
          rw [statN_lookup_symlink _ hp]
          exact ih (by omega) h

theorem statN_ext {fs fs' : FS} (hext : Ext fs fs') :
    ∀ {n : Nat} {p : Path} {e : Entry}, fs.statN n p = some e → fs'.statN n p = some e := by
  intro n
  induction n with
  | zero => intro p e h; exact absurd h (by simp [FS.statN])
  | succ k ih =>
    intro p e h
    rcases hp : fs.lookup p with _ | f
    · rw [statN_lookup_none _ hp] at h; exact absurd h (by simp)
    · have hp' := hext p f hp
      cases f with
      | file c =>
        rw [statN_lookup_file _ hp] at h
        rw [statN_lookup_file _ hp']
        exact h
      | dir =>
        rw [statN_lookup_dir _ hp] at h
        rw [statN_lookup_dir _ hp']
        exact h
      | symlink t =>
        rw [statN_lookup_symlink _ hp] at h
        rw [statN_lookup_symlink _ hp']
        exact ih h

theorem stat_mono {fs fs' : FS} {p : Path} {e : Entry} (hext : Ext fs fs')
    (hlen : fs.entries.length ≤ fs'.entries.length)
    (h : fs.stat p = some e) : fs'.stat p = some e :=
  statN_mono_fuel (by omega) (statN_ext hext h)

theorem pathExists_mono {fs fs' : FS} {p : Path} (hext : Ext fs fs')
    (hlen : fs.entries.length ≤ fs'.entries.length)
    (h : pathExists fs p = true) : pathExists fs' p = true := by
  unfold pathExists at h ⊢
  rcases hs : fs.stat p with _ | e
  · rw [hs] at h; exact absurd h (by simp)
  · rw [stat_mono hext hlen hs]; rfl

/-! ### Lexical path lemmas -/

theorem normpathPush_clean {s : String} (stack : List String) (h : cleanSeg s) :
    normpathPush stack s = stack ++ [s] := by
  rcases h with ⟨h1, h2, h3⟩
  unfold normpathPush
  rw [if_neg (by tauto), if_neg h3]

theorem foldl_push_clean : ∀ (p : Path) (stack : List String), CleanP p →
    p.foldl normpathPush stack = stack ++ p := by
  intro p
  induction p with
  | nil => intro stack _; simp
  | cons a p' ih =>
    intro stack hc
    have ha : cleanSeg a := hc a (by simp)
    have hp' : CleanP p' := fun s hs => hc s (by simp [hs])
    rw [List.foldl_cons, normpathPush_clean stack ha, ih (stack ++ [a]) hp']
    simp

theorem normpath_clean (p : Path) (h : CleanP p) : normpath p = p := by
  unfold normpath
  simpa using foldl_push_clean p [] h

theorem normpathPush_dotdot (stack : List String) :
    normpathPush stack ".." = stack.dropLast := by
  unfold normpathPush
  rw [if_neg (by simp), if_pos rfl]

theorem foldl_push_dots (t : List String) :
    ∀ stack : List String,
      (List.replicate t.length "..").foldl normpathPush (stack ++ t) = stack := by
  induction t using List.reverseRecOn with
  | nil => intro stack; simp
  | append_singleton t' a ih =>
    intro stack
    rw [List.length_append, List.length_cons, List.length_nil, Nat.zero_add,
      List.replicate_succ, List.foldl_cons, normpathPush_dotdot]
    rw [← List.append_assoc, List.dropLast_concat]
    exact ih stack

theorem dropCommon_nil_left (b : Path) : dropCommon [] b = ([], b) := by
  cases b <;> rfl

theorem dropCommon_nil_right (a : Path) : dropCommon a [] = (a, []) := by
  cases a <;> rfl

theorem dropCommon_cons (x y : String) (xs ys : Path) :
    dropCommon (x :: xs) (y :: ys) =
      if x = y then dropCommon xs ys else (x :: xs, y :: ys) := rfl

theorem dropCommon_spec : ∀ a b : Path,
    ∃ c, a = c ++ (dropCommon a b).1 ∧ b = c ++ (dropCommon a b).2 := by
  intro a
  induction a with
  | nil => intro b; exact ⟨[], by simp [dropCommon_nil_left], by simp [dropCommon_nil_left]⟩
  | cons x xs ih =>
    intro b
    cases b with
    | nil => exact ⟨[], by simp [dropCommon_nil_right], by simp [dropCommon_nil_right]⟩
    | cons y ys =>
      by_cases hxy : x = y
      · obtain ⟨c, hc1, hc2⟩ := ih ys
        refine ⟨x :: c, ?_, ?_⟩
        · rw [dropCommon_cons, if_pos hxy]
          exact congrArg (x :: ·) hc1
        · rw [dropCommon_cons, if_pos hxy]
          subst hxy
          exact congrArg (x :: ·) hc2
      · refine ⟨[], ?_, ?_⟩
        · rw [dropCommon_cons, if_neg hxy]
          rfl
        · rw [dropCommon_cons, if_neg hxy]
          rfl

theorem relpath_resolves {a b : Path} (ha : CleanP a) (hb : CleanP b) :
    normpath (b ++ relpathSegs a b) = a := by
  obtain ⟨c, hc1, hc2⟩ := dropCommon_spec a b
  have ha' : CleanP (dropCommon a b).1 := fun s hs => ha s (by rw [hc1]; simp [hs])
  unfold normpath relpathSegs
  rw [← List.append_assoc, List.foldl_append, List.foldl_append]
  have h1 : List.foldl normpathPush [] b = b := by
    simpa using foldl_push_clean b [] hb
  rw [h1]
  have h2 : List.foldl normpathPush b (List.replicate (dropCommon a b).2.length "..") = c := by
    have h3 := foldl_push_dots (dropCommon a b).2 c
    rw [← hc2] at h3
    exact h3
  rw [h2]
  rw [foldl_push_clean _ c ha', ← hc1]

theorem isUnder_take {r p : Path} (h : isUnder r p = true) : p.take r.length = r := by
  unfold isUnder at h
  simpa using h

theorem isUnder_append_drop {r p : Path} (h : isUnder r p = true) :
    r ++ p.drop r.length = p := by
  conv_rhs => rw [← List.take_append_drop r.length p]
  rw [isUnder_take h]

theorem dropCommon_under : ∀ {r p : Path}, isUnder r p = true →
    dropCommon p r = (p.drop r.length, []) := by
  intro r
  induction r with
  | nil =>
    intro p _
    cases p <;> simp [dropCommon]
  | cons y ys ih =>
    intro p h
    cases p with
    | nil =>
      exfalso
      unfold isUnder at h
      simp at h
    | cons x xs =>
      have hx : x = y ∧ xs.take ys.length = ys := by
        unfold isUnder at h
        simpa using h
      have hu : isUnder ys xs = true := by
        unfold isUnder
        simp [hx.2]
      rw [show dropCommon (x :: xs) (y :: ys) = dropCommon xs ys by
        simp [dropCommon, hx.1]]
      rw [ih hu]
      simp

theorem relpathSegs_under {r p : Path} (h : isUnder r p = true) :
    relpathSegs p r = p.drop r.length := by
  unfold relpathSegs
  rw [dropCommon_under h]
  simp

theorem isUnder_append (r q : Path) : isUnder r (r ++ q) = true := by
  unfold isUnder
  simp

theorem relpathSegs_append (r q : Path) : relpathSegs (r ++ q) r = q := by
  rw [relpathSegs_under (isUnder_append r q)]
  simp

/-! ### String name lemmas -/

theorem reverse_dropLast (l : List Char) : l.dropLast.reverse = l.reverse.drop 1 := by
  induction l using List.reverseRecOn with
  | nil => rfl
  | append_singleton l' a _ =>
    rw [List.dropLast_concat, List.reverse_append]
    simp

theorem strDrop1_data_reverse (s : String) :
    (strDrop1 s).data.reverse = s.data.reverse.drop 1 := by
  unfold strDrop1
  exact reverse_dropLast s.data

theorem pyi_shape {s : String} (h : strEnds s ".pyi" = true) :
    s.data.reverse = 'i' :: 'y' :: 'p' :: '.' :: s.data.reverse.drop 4 := by
  unfold strEnds at h
  have h' : s.data.reverse.take 4 = ['i', 'y', 'p', '.'] := by
    have he : (".pyi" : String).data.reverse = ['i', 'y', 'p', '.'] := rfl
    have hl : (".pyi" : String).data.length = 4 := rfl
    rw [hl, he] at h
    simpa using h
  conv_lhs => rw [← List.take_append_drop 4 s.data.reverse, h']
  rfl

theorem py_shape {s : String} (h : strEnds s ".py" = true) :
    s.data.reverse = 'y' :: 'p' :: '.' :: s.data.reverse.drop 3 := by
  unfold strEnds at h
  have h' : s.data.reverse.take 3 = ['y', 'p', '.'] := by
    have he : (".py" : String).data.reverse = ['y', 'p', '.'] := rfl
    have hl : (".py" : String).data.length = 3 := rfl
    rw [hl, he] at h
    simpa using h
  conv_lhs => rw [← List.take_append_drop 3 s.data.reverse, h']
  rfl

theorem strEnds_py_of_pyi {s : String} (h : strEnds s ".pyi" = true) :
    strEnds (strDrop1 s) ".py" = true := by
  unfold strEnds
  rw [strDrop1_data_reverse, pyi_shape h]
  rfl

theorem not_pyi_of_py {s : String} (h : strEnds s ".py" = true) :
    strEnds s ".pyi" = false := by
  cases hpyi : strEnds s ".pyi" with
  | false => rfl
  | true =>
    exfalso
    have h1 := py_shape h
    have h2 := pyi_shape hpyi
    rw [h1] at h2
    have : ('y' : Char) = 'i' := by injection h2
    exact absurd this (by decide)

theorem getLastD_append (l1 : Path) {l2 : Path} (h : l2 ≠ []) (d : String) :
    (l1 ++ l2).getLastD d = l2.getLastD d := by
  induction l2 using List.reverseRecOn with
  | nil => exact absurd rfl h
  | append_singleton t a _ =>
    rw [← List.append_assoc, List.getLastD_concat, List.getLastD_concat]

theorem lastSegPyi_append {rel : Path} (root : Path) (h : rel ≠ []) :
    lastSegPyi (root ++ rel) = lastSegPyi rel := by
  unfold lastSegPyi
  rw [getLastD_append root h]

theorem relPyOf_ne_nil {rel : Path} (h : rel ≠ []) : relPyOf rel ≠ [] := by
  unfold relPyOf
  cases rel with
  | nil => exact absurd rfl h
  | cons a l => simp

theorem relPyOf_getLastD {rel : Path} (h : rel ≠ []) :
    (relPyOf rel).getLastD "" = strDrop1 (rel.getLastD "") := by
  unfold relPyOf
  cases rel with
  | nil => exact absurd rfl h
  | cons a l => exact List.getLastD_concat _ _ _

theorem lastSegPyi_relPy_false {rel : Path} (h : rel ≠ [])
    (hp : lastSegPyi rel = true) : lastSegPyi (relPyOf rel) = false := by
  unfold lastSegPyi at hp ⊢
  rw [relPyOf_getLastD h]
  exact not_pyi_of_py (strEnds_py_of_pyi hp)

/-! ### Walk and index lemmas -/

theorem walkPyi_mem_spec {fs : FS} {root p : Path} :
    p ∈ walkPyi fs root ↔ ∃ e, (p, e) ∈ fs.entries ∧ e ≠ Entry.dir ∧
      isUnder root p = true ∧ root.length < p.length ∧ lastSegPyi p = true := by
  unfold walkPyi
  rw [List.mem_filterMap]
  constructor
  · rintro ⟨⟨q, ev⟩, hmem, heq⟩
    cases ev with
    | dir => simp at heq
    | file c =>
      simp only at heq
      split at heq
      · rename_i hcond
        have hq : q = p := by simpa using heq
        subst hq
        refine ⟨.file c, hmem, by simp, ?_, ?_, ?_⟩ <;> simp_all
      · simp at heq
    | symlink t =>
      simp only at heq
      split at heq
      · rename_i hcond
        have hq : q = p := by simpa using heq
        subst hq
        refine ⟨.symlink t, hmem, by simp, ?_, ?_, ?_⟩ <;> simp_all
      · simp at heq
  · rintro ⟨e, hmem, hne, h1, h2, h3⟩
    refine ⟨(p, e), hmem, ?_⟩
    cases e with
    | dir => exact absurd rfl hne
    | file c => simp [h1, h2, h3]
    | symlink t => simp [h1, h2, h3]

theorem walkPyi_under {fs : FS} {root p : Path} (h : p ∈ walkPyi fs root) :
    root ++ relpathSegs p root = p := by
  obtain ⟨e, _, _, h1, _, _⟩ := walkPyi_mem_spec.mp h
  rw [relpathSegs_under h1]
  exact isUnder_append_drop h1

theorem walkPyi_eq_of_rel {fs : FS} {root p rel : Path} (h : p ∈ walkPyi fs root)
    (hr : relpathSegs p root = rel) : p = root ++ rel := by
  rw [← hr, walkPyi_under h]

/-! ### Index association lemmas -/

theorem alook_of_find {m : List (Path × Path)} {k : Path} :
    alook m k = (m.find? (fun e => e.1 == k)).map (fun e => e.2) := rfl

theorem find_none_of_alook_none {m : List (Path × Path)} {k : Path}
    (h : alook m k = none) : m.find? (fun e => e.1 == k) = none := by
  unfold alook at h
  rcases hf : m.find? (fun e => e.1 == k) with _ | a
  · exact hf
  · rw [hf] at h; simp at h

theorem alook_append_some {m : List (Path × Path)} {k : Path} {v : Path}
    (l : List (Path × Path)) (h : alook m k = some v) : alook (m ++ l) k = some v := by
  unfold alook at h ⊢
  rw [List.find?_append]
  rcases hf : m.find? (fun e => e.1 == k) with _ | a
  · rw [hf] at h; simp at h
  · rw [hf] at h ⊢
    exact h

theorem alook_append_none {m : List (Path × Path)} {k k' : Path} (v : Path)
    (h : alook m k = none) (hne : k' ≠ k) : alook (m ++ [(k', v)]) k = none := by
  unfold alook
  rw [List.find?_append, find_none_of_alook_none h]
  have hc : ((k', v).1 == k) = false := by
    simp only [beq_eq_false_iff_ne]
    exact hne
  rw [show List.find? (fun e => e.1 == k) [(k', v)] = none by
    rw [List.find?_cons_of_neg _ (by simp [hc])]
    rfl]
  rfl

theorem alook_append_self {m : List (Path × Path)} {k : Path} (v : Path)
    (h : alook m k = none) : alook (m ++ [(k, v)]) k = some v := by
  unfold alook
  rw [List.find?_append, find_none_of_alook_none h]
  rw [show List.find? (fun e => e.1 == k) [(k, v)] = some (k, v) by
    rw [List.find?_cons_of_pos _ (by simp)]]
  rfl

theorem not_mem_of_alook_none {m : List (Path × Path)} {k : Path}
    (h : alook m k = none) : ∀ v, (k, v) ∉ m := by
  intro v hv
  have hx := List.find?_eq_none.mp (find_none_of_alook_none h) _ hv
  simp at hx

theorem setdefault_fold_some {root rel v : Path} :
    ∀ (l : List Path) (acc : List (Path × Path)), alook acc rel = some v →
      alook (l.foldl (setdefaultIns root) acc) rel = some v := by
  intro l
  induction l with
  | nil => intro acc h; exact h
  | cons p l' ih =>
    intro acc h
    rw [List.foldl_cons]
    apply ih
    unfold setdefaultIns
    split
    · exact h
    · exact alook_append_some _ h

theorem setdefault_fold_none {root rel : Path} :
    ∀ (l : List Path) (acc : List (Path × Path)), alook acc rel = none →
      alook (l.foldl (setdefaultIns root) acc) rel =
        (l.find? (fun p => relpathSegs p root == rel)).map (fun p => p) := by
  intro l
  induction l with
  | nil => intro acc h; exact h
  | cons p l' ih =>
    intro acc h
    rw [List.foldl_cons]
    by_cases hp : relpathSegs p root = rel
    · have hnone : alook acc (relpathSegs p root) = none := by rw [hp]; exact h
      have hstep : setdefaultIns root acc p = acc ++ [(relpathSegs p root, p)] := by
        unfold setdefaultIns
        rw [hnone]
        rfl
      rw [hstep]
      have hsome : alook (acc ++ [(relpathSegs p root, p)]) rel = some p := by
        rw [hp]
        rw [hp] at hnone
        exact alook_append_self p hnone
      rw [setdefault_fold_some l' _ hsome]
      rw [List.find?_cons_of_pos _ (by simp [hp])]
      rfl
    · have hstep : alook (setdefaultIns root acc p) rel = none := by
        unfold setdefaultIns
        split
        · exact h
        · exact alook_append_none _ h hp
      rw [ih _ hstep, List.find?_cons_of_neg _ (by simp [hp])]

theorem sources_fold_some {fs : FS} {rel v : Path} :
    ∀ (roots : List Path) (acc : List (Path × Path)), alook acc rel = some v →
      alook (roots.foldl (pyiIndexStep fs) acc) rel = some v := by
  intro roots
  induction roots with
  | nil => intro acc h; exact h
  | cons r roots' ih =>
    intro acc h
    rw [List.foldl_cons]
    exact ih _ (setdefault_fold_some _ _ h)

theorem setdefault_fold_sound {root : Path} (P : Path × Path → Prop) :
    ∀ (l : List Path) (acc : List (Path × Path)),
      (∀ x ∈ acc, P x) → (∀ p ∈ l, P (relpathSegs p root, p)) →
      ∀ x ∈ l.foldl (setdefaultIns root) acc, P x := by
  intro l
  induction l with
  | nil => intro acc hacc _ x hx; exact hacc x hx
  | cons p l' ih =>
    intro acc hacc hl x hx
    rw [List.foldl_cons] at hx
    refine ih _ ?_ (fun q hq => hl q (by simp [hq])) x hx
    intro y hy
    unfold setdefaultIns at hy
    split at hy
    · exact hacc y hy
    · rcases List.mem_append.mp hy with hy1 | hy2
      · exact hacc y hy1
      · have : y = (relpathSegs p root, p) := by simpa using hy2
        rw [this]
        exact hl p (by simp)

theorem pyi_sources_sound {fs : FS} {roots : List Path} :
    ∀ x ∈ pyi_sources fs roots,
      ∃ r ∈ roots, x.2 ∈ walkPyi fs r ∧ x.1 = relpathSegs x.2 r := by
  unfold pyi_sources
  have main : ∀ (rs : List Path) (acc : List (Path × Path)),
      (∀ x ∈ acc, ∃ r ∈ roots, x.2 ∈ walkPyi fs r ∧ x.1 = relpathSegs x.2 r) →
      (∀ r ∈ rs, r ∈ roots) →
      ∀ x ∈ rs.foldl (pyiIndexStep fs) acc,
        ∃ r ∈ roots, x.2 ∈ walkPyi fs r ∧ x.1 = relpathSegs x.2 r := by
    intro rs
    induction rs with
    | nil => intro acc hacc _ x hx; exact hacc x hx
    | cons r rs' ih =>
      intro acc hacc hsub x hx
      rw [List.foldl_cons] at hx
      refine ih _ ?_ (fun q hq => hsub q (by simp [hq])) x hx
      intro y hy
      refine setdefault_fold_sound _ _ _ hacc ?_ y hy
      intro p hp
      exact ⟨r, hsub r (by simp), hp, rfl⟩
  intro x hx
  exact main roots [] (by simp) (fun r hr => hr) x hx

theorem setdefault_fold_uniq {root : Path} :
    ∀ (l : List Path) (acc : List (Path × Path)),
      (∀ k a b, (k, a) ∈ acc → (k, b) ∈ acc → a = b) →
      ∀ k a b, (k, a) ∈ l.foldl (setdefaultIns root) acc →
        (k, b) ∈ l.foldl (setdefaultIns root) acc → a = b := by
  intro l
  induction l with
  | nil => intro acc hacc k a b ha hb; exact hacc k a b ha hb
  | cons p l' ih =>
    intro acc hacc
    rw [List.foldl_cons]
    refine ih _ ?_
    intro k a b ha hb
    unfold setdefaultIns at ha hb
    by_cases hcond : (alook acc (relpathSegs p root)).isSome = true
    · rw [if_pos hcond] at ha hb
      exact hacc k a b ha hb
    · rw [if_neg hcond] at ha hb
      have hn : alook acc (relpathSegs p root) = none := by
        rcases hv : alook acc (relpathSegs p root) with _ | v
        · rfl
        · rw [hv] at hcond; simp at hcond
      rcases List.mem_append.mp ha with ha1 | ha2
      · rcases List.mem_append.mp hb with hb1 | hb2
        · exact hacc k a b ha1 hb1
        · have hb' : k = relpathSegs p root ∧ b = p := by simpa using hb2
          exfalso
          exact not_mem_of_alook_none hn a (hb'.1 ▸ ha1)
      · have ha' : k = relpathSegs p root ∧ a = p := by simpa using ha2
        rcases List.mem_append.mp hb with hb1 | hb2
        · exfalso
          exact not_mem_of_alook_none hn b (ha'.1 ▸ hb1)
        · have hb' : k = relpathSegs p root ∧ b = p := by simpa using hb2
          rw [ha'.2, hb'.2]

theorem pyi_sources_uniq {fs : FS} {roots : List Path} :
    ∀ k a b, (k, a) ∈ pyi_sources fs roots → (k, b) ∈ pyi_sources fs roots → a = b := by
  unfold pyi_sources
  have main : ∀ (rs : List Path) (acc : List (Path × Path)),
      (∀ k a b, (k, a) ∈ acc → (k, b) ∈ acc → a = b) →
      ∀ k a b, (k, a) ∈ rs.foldl (pyiIndexStep fs) acc →
        (k, b) ∈ rs.foldl (pyiIndexStep fs) acc → a = b := by
    intro rs
    induction rs with
    | nil => intro acc hacc; exact hacc
    | cons r rs' ih =>
      intro acc hacc
      rw [List.foldl_cons]
      exact ih _ (setdefault_fold_uniq _ _ hacc)
  exact main roots [] (by simp)

theorem indexStep_alook_none {fs : FS} {root rel : Path} {acc : List (Path × Path)}
    (h : alook acc rel = none) :
    alook (pyiIndexStep fs acc root) rel =
      ((walkPyi fs root).find? (fun p => relpathSegs p root == rel)).map (fun p => p) :=
  setdefault_fold_none _ _ h

theorem pyi_sources_first {fs : FS} {pre post : List Path} {root rel : Path}
    (hpre : ∀ r ∈ pre, (r ++ rel) ∉ walkPyi fs r)
    (hmem : (root ++ rel) ∈ walkPyi fs root) :
    alook (pyi_sources fs (pre ++ root :: post)) rel = some (root ++ rel) := by
  unfold pyi_sources
  rw [List.foldl_append]
  have hpre_none : alook (pre.foldl (pyiIndexStep fs) []) rel = none := by
    have main : ∀ (rs : List Path) (acc : List (Path × Path)),
        (∀ r ∈ rs, (r ++ rel) ∉ walkPyi fs r) → alook acc rel = none →
        alook (rs.foldl (pyiIndexStep fs) acc) rel = none := by
      intro rs
      induction rs with
      | nil => intro acc _ h; exact h
      | cons r rs' ih =>
        intro acc hrs h
        rw [List.foldl_cons]
        refine ih _ (fun q hq => hrs q (by simp [hq])) ?_
        rw [indexStep_alook_none h]
        have hfind : (walkPyi fs r).find? (fun p => relpathSegs p r == rel) = none := by
          rw [List.find?_eq_none]
          intro p hp hpred
          have hrel : relpathSegs p r = rel := by simpa using hpred
          have hpe := walkPyi_eq_of_rel hp hrel
          exact hrs r (by simp) (hpe ▸ hp)
        rw [hfind]
        rfl
    exact main pre [] hpre rfl
  rw [List.foldl_cons]
  have hroot : alook (pyiIndexStep fs (pre.foldl (pyiIndexStep fs) []) root) rel =
      some (root ++ rel) := by
    rw [indexStep_alook_none hpre_none]
    have hpred : (fun p => relpathSegs p root == rel) (root ++ rel) = true := by
      simp [relpathSegs_append]
    have hsome : ((walkPyi fs root).find? (fun p => relpathSegs p root == rel)).isSome := by
      rw [List.find?_isSome]
      exact ⟨root ++ rel, hmem, hpred⟩
    rcases hf : (walkPyi fs root).find? (fun p => relpathSegs p root == rel) with _ | q
    · rw [hf] at hsome; simp at hsome
    · have hq1 := List.find?_some hf
      have hq2 := List.mem_of_find?_eq_some hf
      have hrel : relpathSegs q root = rel := by simpa using hq1
      have hqe : q = root ++ rel := walkPyi_eq_of_rel hq2 hrel
      rw [hqe]
      rfl
  exact sources_fold_some post _ hroot

/-! ### Synthesis run lemmas -/

theorem stepTask_some_inv {fs : FS} {t : Task} {fs1 : FS} {ops : List Op}
    (h : stepTask fs t = some (fs1, ops)) :
    (fs1 = fs ∧ ops = []) ∨
      (fs.lookup (t.root ++ t.rel) = none ∧
        isfile fs (t.root ++ relPyOf t.rel) = true ∧
        pathExists fs (t.root ++ t.rel) = false ∧
        fs1 = fs.insert (t.root ++ t.rel)
          (.symlink (.rel (relpathSegs t.src (t.root ++ t.rel).dropLast))) ∧
        ops = [Op.symlinkOp (t.root ++ t.rel)
          (.rel (relpathSegs t.src (t.root ++ t.rel).dropLast))]) := by
  unfold stepTask at h
  split at h
  · rename_i hcond
    split at h
    · simp at h
    · rename_i hlex
      right
      have hnone : fs.lookup (t.root ++ t.rel) = none := by
        unfold FS.lexists at hlex
        rcases hv : fs.lookup (t.root ++ t.rel) with _ | v
        · rfl
        · rw [hv] at hlex; simp at hlex
      have hc := hcond
      rw [Bool.and_eq_true] at hc
      have hf : isfile fs (t.root ++ relPyOf t.rel) = true := hc.1
      have he : pathExists fs (t.root ++ t.rel) = false := by
        have := hc.2
        simpa using this
      have hinj : fs1 = fs.insert (t.root ++ t.rel)
          (.symlink (.rel (relpathSegs t.src (t.root ++ t.rel).dropLast))) ∧
          ops = [Op.symlinkOp (t.root ++ t.rel)
            (.rel (relpathSegs t.src (t.root ++ t.rel).dropLast))] := by
        have h' := h
        injection h' with h''
        exact ⟨congrArg Prod.fst h''.symm, congrArg Prod.snd h''.symm⟩
      exact ⟨hnone, hf, he, hinj.1, hinj.2⟩
  · left
    have h' := h
    injection h' with h''
    exact ⟨congrArg Prod.fst h''.symm, congrArg Prod.snd h''.symm⟩

theorem stepTask_none_inv {fs : FS} {t : Task} (h : stepTask fs t = none) :
    isfile fs (t.root ++ relPyOf t.rel) = true ∧
      pathExists fs (t.root ++ t.rel) = false ∧
      fs.lexists (t.root ++ t.rel) = true := by
  unfold stepTask at h
  split at h
  · rename_i hcond
    rw [Bool.and_eq_true] at hcond
    split at h
    · rename_i hlex
      exact ⟨hcond.1, by simpa using hcond.2, hlex⟩
    · simp at h
  · simp at h

theorem runTasks_nil (fs : FS) : runTasks fs [] = (fs, [], none) := rfl

theorem runTasks_cons_err {fs : FS} {t : Task} (ts : List Task)
    (h : stepTask fs t = none) : runTasks fs (t :: ts) = (fs, [], some t) := by
  unfold runTasks
  rw [h]

theorem runTasks_cons_ok {fs : FS} {t : Task} {fs1 : FS} {ops : List Op} (ts : List Task)
    (h : stepTask fs t = some (fs1, ops)) :
    runTasks fs (t :: ts) =
      ((runTasks fs1 ts).1, ops ++ (runTasks fs1 ts).2.1, (runTasks fs1 ts).2.2) := by
  conv_lhs => rw [runTasks]
  rw [h]

theorem ext_refl (fs : FS) : Ext fs fs := fun _ _ h => h

theorem ext_trans {a b c : FS} (h1 : Ext a b) (h2 : Ext b c) : Ext a c :=
  fun p e h => h2 p e (h1 p e h)

theorem ext_insert_fresh {fs : FS} {p : Path} (e : Entry) (h : fs.lookup p = none) :
    Ext fs (fs.insert p e) := by
  intro q v hq
  have hne : q ≠ p := fun hc => by rw [hc, h] at hq; cases hq
  rw [lookup_insert_ne fs e hne]
  exact hq

theorem insert_length (fs : FS) (p : Path) (e : Entry) :
    (fs.insert p e).entries.length = fs.entries.length + 1 := rfl

theorem runTasks_ext : ∀ (ts : List Task) (fs : FS),
    Ext fs (runTasks fs ts).1 ∧
      fs.entries.length ≤ (runTasks fs ts).1.entries.length := by
  intro ts
  induction ts with
  | nil => intro fs; exact ⟨ext_refl fs, le_refl _⟩
  | cons t ts' ih =>
    intro fs
    rcases hstep : stepTask fs t with _ | ⟨fs1, ops⟩
    · rw [runTasks_cons_err _ hstep]
      exact ⟨ext_refl fs, le_refl _⟩
    · rw [runTasks_cons_ok _ hstep]
      rcases stepTask_some_inv hstep with ⟨hfs, _⟩ | ⟨hnone, _, _, hfs, _⟩
      · subst hfs
        exact ih fs1
      · have he1 : Ext fs fs1 := hfs ▸ ext_insert_fresh _ hnone
        have hl1 : fs.entries.length ≤ fs1.entries.length := by
          rw [hfs, insert_length]
          omega
        obtain ⟨he2, hl2⟩ := ih fs1
        exact ⟨ext_trans he1 he2, le_trans hl1 hl2⟩

theorem runTasks_preserves {p : Path} {v : Entry} :
    ∀ (ts : List Task) (fs : FS), fs.lookup p = some v →
      (runTasks fs ts).1.lookup p = some v ∧
        ∀ tgt, Op.symlinkOp p tgt ∉ (runTasks fs ts).2.1 := by
  intro ts
  induction ts with
  | nil => intro fs h; exact ⟨h, by simp [runTasks_nil]⟩
  | cons t ts' ih =>
    intro fs h
    rcases hstep : stepTask fs t with _ | ⟨fs1, ops⟩
    · rw [runTasks_cons_err _ hstep]
      exact ⟨h, by simp⟩
    · rw [runTasks_cons_ok _ hstep]
      rcases stepTask_some_inv hstep with ⟨hfs, hops⟩ | ⟨hnone, _, _, hfs, hops⟩
      · have h1 : fs1.lookup p = some v := by rw [hfs]; exact h
        obtain ⟨ih1, ih2⟩ := ih fs1 h1
        refine ⟨ih1, ?_⟩
        intro tgt hmem
        rw [hops] at hmem
        simp only [List.nil_append] at hmem
        exact ih2 tgt hmem
      · have hne : t.root ++ t.rel ≠ p := by
          intro hc
          rw [hc, h] at hnone
          cases hnone
        have h1 : fs1.lookup p = some v := by
          rw [hfs, lookup_insert_ne _ _ (Ne.symm hne)]
          exact h
        obtain ⟨ih1, ih2⟩ := ih fs1 h1
        refine ⟨ih1, ?_⟩
        intro tgt hmem
        rcases List.mem_append.mp hmem with hm1 | hm2
        · rw [hops] at hm1
          have : Op.symlinkOp p tgt = Op.symlinkOp (t.root ++ t.rel)
              (.rel (relpathSegs t.src (t.root ++ t.rel).dropLast)) := by simpa using hm1
          injection this with hp _
          exact hne hp.symm
        · exact ih2 tgt hm2

theorem runTasks_append_of_err {t : Task} :
    ∀ (ts1 : List Task) (fs : FS) (ts2 : List Task),
      (runTasks fs ts1).2.2 = some t →
      runTasks fs (ts1 ++ ts2) = runTasks fs ts1 := by
  intro ts1
  induction ts1 with
  | nil =>
    intro fs ts2 h
    rw [runTasks_nil] at h
    cases h
  | cons t1 ts1' ih =>
    intro fs ts2 h
    rcases hstep : stepTask fs t1 with _ | ⟨fs1, ops⟩
    · rw [List.cons_append, runTasks_cons_err _ hstep, runTasks_cons_err _ hstep]
    · rw [runTasks_cons_ok _ hstep] at h
      rw [List.cons_append, runTasks_cons_ok _ hstep, runTasks_cons_ok _ hstep]
      rw [ih fs1 ts2 h]

theorem tasksOf_mem_iff {index : List (Path × Path)} {roots : List Path} {t : Task} :
    t ∈ tasksOf index roots ↔ ∃ e ∈ index, ∃ r ∈ roots, t = ⟨e.1, e.2, r⟩ := by
  unfold tasksOf
  have main : ∀ (idx : List (Path × Path)) (acc : List Task),
      t ∈ idx.foldl (fun acc e => acc ++ roots.map (fun r => (⟨e.1, e.2, r⟩ : Task))) acc ↔
        t ∈ acc ∨ ∃ e ∈ idx, ∃ r ∈ roots, t = ⟨e.1, e.2, r⟩ := by
    intro idx
    induction idx with
    | nil => intro acc; simp
    | cons e idx' ih =>
      intro acc
      rw [List.foldl_cons, ih]
      rw [List.mem_append]
      constructor
      · rintro ((h1 | h2) | h3)
        · exact Or.inl h1
        · rw [List.mem_map] at h2
          obtain ⟨r, hr, ht⟩ := h2
          exact Or.inr ⟨e, by simp, r, hr, ht.symm⟩
        · obtain ⟨e', he', r, hr, ht⟩ := h3
          exact Or.inr ⟨e', by simp [he'], r, hr, ht⟩
      · rintro (h1 | ⟨e', he', r, hr, ht⟩)
        · exact Or.inl (Or.inl h1)
        · rcases List.mem_cons.mp he' with he1 | he2
          · subst he1
            exact Or.inl (Or.inr (List.mem_map.mpr ⟨r, hr, ht.symm⟩))
          · exact Or.inr ⟨e', he2, r, hr, ht⟩
  rw [main index []]
  simp

theorem isUnder_of_take {r1 r2 : Path} (h : r2.take r1.length = r1) :
    isUnder r1 r2 = true := by
  unfold isUnder
  simp [h]

theorem append_inj_of_nonest {roots : List Path} (hnn : NoNest roots)
    {r1 r2 rel1 rel2 : Path} (h1 : r1 ∈ roots) (h2 : r2 ∈ roots)
    (heq : r1 ++ rel1 = r2 ++ rel2) : r1 = r2 ∧ rel1 = rel2 := by
  have key : ∀ {a b : Path} {ra rb : Path}, a ∈ roots → b ∈ roots →
      a.length ≤ b.length → a ++ ra = b ++ rb → a = b := by
    intro a b ra rb ha hb hlen he
    have ht : (a ++ ra).take a.length = a := List.take_left a ra
    rw [he] at ht
    have ht2 : (b ++ rb).take a.length = b.take a.length := by
      rw [List.take_append_of_le_length hlen]
    rw [ht2] at ht
    exact hnn a ha b hb (isUnder_of_take ht)
  have hr : r1 = r2 := by
    rcases le_total r1.length r2.length with hle | hle
    · exact key h1 h2 hle heq
    · exact (key h2 h1 hle heq.symm).symm
  subst hr
  exact ⟨rfl, List.append_cancel_left heq⟩

theorem run_creates {rel ab root : Path} {c : List String} :
    ∀ (ts : List Task) (fs : FS),
      (runTasks fs ts).2.2 = none →
      (⟨rel, ab, root⟩ : Task) ∈ ts →
      (∀ t ∈ ts, t.rel = rel → t.root = root → t.src = ab) →
      (∀ t ∈ ts, t.root ++ t.rel = root ++ rel → t.rel = rel ∧ t.root = root) →
      fs.lookup (root ++ relPyOf rel) = some (.file c) →
      fs.lookup (root ++ rel) = none →
      (runTasks fs ts).1.lookup (root ++ rel) =
        some (.symlink (.rel (relpathSegs ab (root ++ rel).dropLast))) := by
  intro ts
  induction ts with
  | nil => intro fs _ hmem; cases hmem
  | cons t ts' ih =>
    intro fs hok hmem hsrc halias hpy hnone
    rcases hstep : stepTask fs t with _ | ⟨fs1, ops⟩
    · rw [runTasks_cons_err _ hstep] at hok
      cases hok
    · rw [runTasks_cons_ok _ hstep] at hok ⊢
      by_cases ht : t.root ++ t.rel = root ++ rel
      · have hta := halias t (by simp) ht
        have hts : t.src = ab := hsrc t (by simp) hta.1 hta.2
        have htt : t = ⟨rel, ab, root⟩ := by
          rcases t with ⟨t1, t2, t3⟩
          simp_all
        subst htt
        have hfile : isfile fs (root ++ relPyOf rel) = true := by
          unfold isfile
          rw [stat_lookup_file hpy]
        have hex : pathExists fs (root ++ rel) = false := by
          unfold pathExists
          rw [stat_lookup_none hnone]
          rfl
        have hlex : fs.lexists (root ++ rel) = false := by
          unfold FS.lexists
          rw [hnone]
          rfl
        have hcreate : stepTask fs ⟨rel, ab, root⟩ =
            some (fs.insert (root ++ rel)
              (.symlink (.rel (relpathSegs ab (root ++ rel).dropLast))),
              [Op.symlinkOp (root ++ rel)
                (.rel (relpathSegs ab (root ++ rel).dropLast))]) := by
          unfold stepTask
          simp only
          rw [hfile, hex, hlex]
          rfl
        rw [hstep] at hcreate
        have hfs1 : fs1 = fs.insert (root ++ rel)
            (.symlink (.rel (relpathSegs ab (root ++ rel).dropLast))) := by
          injection hcreate with h'
          exact congrArg Prod.fst h'
        have hl1 : fs1.lookup (root ++ rel) =
            some (.symlink (.rel (relpathSegs ab (root ++ rel).dropLast))) := by
          rw [hfs1]
          exact lookup_insert _ _ _
        exact (runTasks_preserves ts' fs1 hl1).1
      · rcases stepTask_some_inv hstep with ⟨hfs, _⟩ | ⟨hfresh, _, _, hfs, _⟩
        · have hmem' : (⟨rel, ab, root⟩ : Task) ∈ ts' := by
            rcases List.mem_cons.mp hmem with he | hm
            · exfalso
              apply ht
              rw [← he]
            · exact hm
          refine ih fs1 hok hmem' (fun q hq => hsrc q (by simp [hq]))
            (fun q hq => halias q (by simp [hq])) ?_ ?_
          · rw [hfs]; exact hpy
          · rw [hfs]; exact hnone
        · have hmem' : (⟨rel, ab, root⟩ : Task) ∈ ts' := by
            rcases List.mem_cons.mp hmem with he | hm
            · exfalso
              apply ht
              rw [← he]
            · exact hm
          have hqne : t.root ++ t.rel ≠ root ++ relPyOf rel := by
            intro hc
            rw [hc, hpy] at hfresh
            cases hfresh
          have hqne2 : t.root ++ t.rel ≠ root ++ rel := ht
          refine ih fs1 hok hmem' (fun q hq => hsrc q (by simp [hq]))
            (fun q hq => halias q (by simp [hq])) ?_ ?_
          · rw [hfs, lookup_insert_ne _ _ (fun hc => hqne hc.symm)]
            exact hpy
          · rw [hfs, lookup_insert_ne _ _ (fun hc => hqne2 hc.symm)]
            exact hnone

/-! ### Clean path closure lemmas -/

theorem cleanP_append {a b : Path} (ha : CleanP a) (hb : CleanP b) : CleanP (a ++ b) := by
  intro s hs
  rcases List.mem_append.mp hs with h | h
  · exact ha s h
  · exact hb s h

theorem cleanP_dropLast {p : Path} (h : CleanP p) : CleanP p.dropLast :=
  fun s hs => h s ((List.dropLast_sublist p).subset hs)

theorem cleanP_drop {p : Path} (n : Nat) (h : CleanP p) : CleanP (p.drop n) :=
  fun s hs => h s (List.mem_of_mem_drop hs)

theorem lookup_eq_of_mem_uniq {fs : FS} {p : Path} {e : Entry}
    (hu : UniqKeys fs) (hmem : (p, e) ∈ fs.entries) : fs.lookup p = some e := by
  have hsome : (fs.entries.find? (fun x => x.1 == p)).isSome := by
    rw [List.find?_isSome]
    exact ⟨(p, e), hmem, by simp⟩
  rcases hf : fs.entries.find? (fun x => x.1 == p) with _ | a
  · rw [hf] at hsome; simp at hsome
  · have ha1 : a.1 = p := by simpa using List.find?_some hf
    have ha2 := List.mem_of_find?_eq_some hf
    have ha3 : (p, a.2) ∈ fs.entries := by
      rw [← ha1]
      exact ha2
    have hae : a.2 = e := hu (p, a.2) ha3 (p, e) hmem rfl
    unfold FS.lookup
    rw [hf, ← hae]
    rfl

/-! ### Index entry shape lemmas -/

theorem sources_shape {fs : FS} {roots : List Path} {rel ab : Path}
    (h : (rel, ab) ∈ pyi_sources fs roots) :
    ∃ r ∈ roots, ab = r ++ rel ∧ rel ≠ [] ∧ lastSegPyi rel = true ∧
      ∃ e, (ab, e) ∈ fs.entries ∧ e ≠ Entry.dir := by
  obtain ⟨r, hr, hw0, hrel0⟩ := pyi_sources_sound (rel, ab) h
  have hw : ab ∈ walkPyi fs r := hw0
  have hrel : rel = relpathSegs ab r := hrel0
  obtain ⟨e, hmem0, hnd, hu, hlen0, hpyi0⟩ := walkPyi_mem_spec.mp hw
  have hmem : (ab, e) ∈ fs.entries := hmem0
  have hlen : r.length < ab.length := hlen0
  have hpyiab : lastSegPyi ab = true := hpyi0
  have hab : ab = r ++ rel := by
    rw [hrel]
    exact (walkPyi_under hw).symm
  have hne : rel ≠ [] := by
    intro hc
    rw [hc, List.append_nil] at hab
    rw [hab] at hlen
    omega
  have hps : lastSegPyi rel = true := by
    have he : lastSegPyi (r ++ rel) = lastSegPyi rel := lastSegPyi_append r hne
    rw [← he, ← hab]
    exact hpyiab
  exact ⟨r, hr, hab, hne, hps, e, hmem, hnd⟩

/-! ### Synthesis invariant lemmas -/

theorem inv_refl (fs : FS) : Inv fs fs :=
  ⟨fun _ _ h => h, fun _ h => Or.inl h⟩

theorem inv_isfile_eq {fs0 fs1 : FS} (hInv : Inv fs0 fs1) (hsf : SymFree fs0)
    {q : Path} (hq : lastSegPyi q = false) : isfile fs1 q = isfile fs0 q := by
  rcases h0 : fs0.lookup q with _ | e0
  · rcases hInv.2 q h0 with h1 | ⟨hpyi, _⟩
    · unfold isfile
      rw [stat_lookup_none h0, stat_lookup_none h1]
    · rw [hpyi] at hq
      cases hq
  · have h1 : fs1.lookup q = some e0 := hInv.1 q e0 h0
    cases e0 with
    | file c =>
      unfold isfile
      rw [stat_lookup_file h0, stat_lookup_file h1]
    | dir =>
      unfold isfile
      rw [stat_lookup_dir h0, stat_lookup_dir h1]
    | symlink t =>
      exfalso
      have hx := hsf _ (mem_entries_of_lookup h0)
      simp [isLink] at hx

theorem inv_pathExists_of_created {fs0 fs1 : FS} (hInv : Inv fs0 fs1) {p : Path}
    (h0 : fs0.lookup p = none) (h1 : fs1.lookup p ≠ none) :
    pathExists fs1 p = true := by
  rcases hInv.2 p h0 with hn | ⟨_, tl, ab, c, hl, hd, hab⟩
  · exact absurd hn h1
  · have hab1 : fs1.lookup ab = some (.file c) := hInv.1 ab _ hab
    have hs : fs1.stat p = some (.file c) := by
      refine stat_symlink_resolved hl ?_ (by intro t' hc; cases hc)
      rw [hd]
      exact hab1
    unfold pathExists
    rw [hs]
    rfl

theorem stepTask_skip_of_cond {fs : FS} {t : Task}
    (h : (isfile fs (t.root ++ relPyOf t.rel) && !(pathExists fs (t.root ++ t.rel))) = false) :
    stepTask fs t = some (fs, []) := by
  unfold stepTask
  rw [h]
  rfl

theorem run1_main {fs0 : FS} (hsf : SymFree fs0) :
    ∀ (ts : List Task) (fs1 : FS), Inv fs0 fs1 → (∀ t ∈ ts, TaskOk fs0 t) →
      (runTasks fs1 ts).2.2 = none ∧ Inv fs0 (runTasks fs1 ts).1 ∧
        ∀ t ∈ ts, Done (runTasks fs1 ts).1 t := by
  intro ts
  induction ts with
  | nil =>
    intro fs1 hInv _
    rw [runTasks_nil]
    exact ⟨rfl, hInv, by simp⟩
  | cons t ts' ih =>
    intro fs1 hInv hok
    obtain ⟨hne, hpyi, ⟨c0, hsrc⟩, hcs, hcp⟩ := hok t (by simp)
    have hok' : ∀ q ∈ ts', TaskOk fs0 q := fun q hq => hok q (by simp [hq])
    have hpyfalse : lastSegPyi (t.root ++ relPyOf t.rel) = false := by
      rw [lastSegPyi_append t.root (relPyOf_ne_nil hne)]
      exact lastSegPyi_relPy_false hne hpyi
    by_cases hf : isfile fs1 (t.root ++ relPyOf t.rel) = true
    · by_cases hex : pathExists fs1 (t.root ++ t.rel) = true
      · -- already settled: skip
        have hskip : stepTask fs1 t = some (fs1, []) := by
          apply stepTask_skip_of_cond
          rw [hf, hex]
          rfl
        rw [runTasks_cons_ok _ hskip]
        obtain ⟨ihs, ihi, ihd⟩ := ih fs1 hInv hok'
        refine ⟨ihs, ihi, ?_⟩
        intro q hq
        rcases List.mem_cons.mp hq with hq1 | hq2
        · subst hq1
          right
          exact pathExists_mono (runTasks_ext ts' fs1).1 (runTasks_ext ts' fs1).2 hex
        · exact ihd q hq2
      · -- create the stub link
        have hexf : pathExists fs1 (t.root ++ t.rel) = false := by
          cases hb : pathExists fs1 (t.root ++ t.rel)
          · rfl
          · exact absurd hb hex
        have hlnone : fs1.lookup (t.root ++ t.rel) = none := by
          rcases hl : fs1.lookup (t.root ++ t.rel) with _ | e
          · rfl
          · exfalso
            rcases h00 : fs0.lookup (t.root ++ t.rel) with _ | e0
            · have := inv_pathExists_of_created hInv h00 (by rw [hl]; simp)
              rw [this] at hexf
              cases hexf
            · have h1 : fs1.lookup (t.root ++ t.rel) = some e0 := hInv.1 _ e0 h00
              have hnd := hsf _ (mem_entries_of_lookup h00)
              have hstatv : pathExists fs1 (t.root ++ t.rel) = true := by
                unfold pathExists
                cases e0 with
                | file c => rw [stat_lookup_file h1]; rfl
                | dir => rw [stat_lookup_dir h1]; rfl
                | symlink t' => simp [isLink] at hnd
              rw [hstatv] at hexf
              cases hexf
        have h0none : fs0.lookup (t.root ++ t.rel) = none := by
          rcases h00 : fs0.lookup (t.root ++ t.rel) with _ | e0
          · rfl
          · have := hInv.1 _ e0 h00
            rw [hlnone] at this
            cases this
        have hlex : fs1.lexists (t.root ++ t.rel) = false := by
          unfold FS.lexists
          rw [hlnone]
          rfl
        have hcreate : stepTask fs1 t =
            some (fs1.insert (t.root ++ t.rel)
              (.symlink (.rel (relpathSegs t.src (t.root ++ t.rel).dropLast))),
              [Op.symlinkOp (t.root ++ t.rel)
                (.rel (relpathSegs t.src (t.root ++ t.rel).dropLast))]) := by
          unfold stepTask
          rw [hf, hexf, hlex]
          rfl
        set fs2 := fs1.insert (t.root ++ t.rel)
          (.symlink (.rel (relpathSegs t.src (t.root ++ t.rel).dropLast))) with hfs2
        have hresolve : linkDest (t.root ++ t.rel)
            (.rel (relpathSegs t.src (t.root ++ t.rel).dropLast)) = t.src := by
          unfold linkDest
          exact relpath_resolves hcs (cleanP_dropLast hcp)
        have hInv2 : Inv fs0 fs2 := by
          constructor
          · intro p e hp
            have h1 : fs1.lookup p = some e := hInv.1 p e hp
            have hnep : p ≠ t.root ++ t.rel := by
              intro hc
              rw [hc, hlnone] at h1
              cases h1
            rw [hfs2, lookup_insert_ne _ _ hnep]
            exact h1
          · intro p hp
            by_cases hpe : p = t.root ++ t.rel
            · subst hpe
              right
              refine ⟨by rw [lastSegPyi_append t.root hne]; exact hpyi,
                relpathSegs t.src (t.root ++ t.rel).dropLast, t.src, c0, ?_, hresolve, hsrc⟩
              rw [hfs2]
              exact lookup_insert _ _ _
            · rcases hInv.2 p hp with h1 | ⟨hpp, tl, ab, c, hl, hd, hab⟩
              · left
                rw [hfs2, lookup_insert_ne _ _ hpe]
                exact h1
              · right
                refine ⟨hpp, tl, ab, c, ?_, hd, hab⟩
                rw [hfs2, lookup_insert_ne _ _ hpe]
                exact hl
        rw [runTasks_cons_ok _ hcreate]
        obtain ⟨ihs, ihi, ihd⟩ := ih fs2 hInv2 hok'
        refine ⟨ihs, ihi, ?_⟩
        intro q hq
        rcases List.mem_cons.mp hq with hq1 | hq2
        · subst hq1
          right
          have hex2 : pathExists fs2 (q.root ++ q.rel) = true := by
            refine inv_pathExists_of_created hInv2 h0none ?_
            rw [hfs2, lookup_insert]
            simp
          exact pathExists_mono (runTasks_ext ts' fs2).1 (runTasks_ext ts' fs2).2 hex2
        · exact ihd q hq2
    · -- no sibling source: skip, and the guard stays false forever
      have hff : isfile fs1 (t.root ++ relPyOf t.rel) = false := by
        cases hb : isfile fs1 (t.root ++ relPyOf t.rel)
        · rfl
        · exact absurd hb hf
      have hskip : stepTask fs1 t = some (fs1, []) := by
        apply stepTask_skip_of_cond
        rw [hff]
        rfl
      rw [runTasks_cons_ok _ hskip]
      obtain ⟨ihs, ihi, ihd⟩ := ih fs1 hInv hok'
      refine ⟨ihs, ihi, ?_⟩
      intro q hq
      rcases List.mem_cons.mp hq with hq1 | hq2
      · subst hq1
        left
        rw [inv_isfile_eq ihi hsf hpyfalse]
        rw [inv_isfile_eq hInv hsf hpyfalse] at hff
        exact hff
      · exact ihd q hq2

theorem run_noop : ∀ (ts : List Task) (fs1 : FS),
    (∀ t ∈ ts, Done fs1 t) → runTasks fs1 ts = (fs1, [], none) := by
  intro ts
  induction ts with
  | nil => intro fs1 _; rfl
  | cons t ts' ih =>
    intro fs1 hd
    have hskip : stepTask fs1 t = some (fs1, []) := by
      apply stepTask_skip_of_cond
      rcases hd t (by simp) with h1 | h2
      · rw [h1]
        rfl
      · rw [h2]
        simp
    rw [runTasks_cons_ok _ hskip, ih fs1 (fun q hq => hd q (by simp [hq]))]
    rfl

theorem tasksOk_of_sources {fs : FS} {roots : List Path} (hsf : SymFree fs)
    (hcfs : CleanFS fs) (huk : UniqKeys fs) (hcr : ∀ r ∈ roots, CleanP r) :
    ∀ t ∈ tasksOf (pyi_sources fs roots) roots, TaskOk fs t := by
  intro t ht
  obtain ⟨e, he, r, hr, hteq⟩ := tasksOf_mem_iff.mp ht
  obtain ⟨r', hr', hab, hne, hpyi, ev, hmem, hnd⟩ := sources_shape (he : (e.1, e.2) ∈ _)
  have hcab : CleanP e.2 := hcfs (e.2, ev) hmem
  have hlook : fs.lookup e.2 = some ev := lookup_eq_of_mem_uniq huk hmem
  have hfile : ∃ c, fs.lookup e.2 = some (.file c) := by
    cases ev with
    | file c => exact ⟨c, hlook⟩
    | dir => exact absurd rfl hnd
    | symlink tl =>
      exfalso
      have hx := hsf _ hmem
      simp [isLink] at hx
  have hcrel : CleanP e.1 := by
    intro s hs
    apply hcab
    rw [hab]
    exact List.mem_append.mpr (Or.inr hs)
  subst hteq
  exact ⟨hne, hpyi, hfile, hcab, cleanP_append (hcr r hr) hcrel⟩

theorem mem_of_alook_some {m : List (Path × Path)} {k v : Path}
    (h : alook m k = some v) : (k, v) ∈ m := by
  unfold alook at h
  rcases hf : m.find? (fun e => e.1 == k) with _ | a
  · rw [hf] at h; simp at h
  · rw [hf] at h
    have ha1 : a.1 = k := by simpa using List.find?_some hf
    have ha2 := List.mem_of_find?_eq_some hf
    have hav : a.2 = v := by simpa using h
    have : a = (k, v) := by
      rcases a with ⟨a1, a2⟩
      simp_all
    exact this ▸ ha2

/-! ### Root resolution fold lemmas -/

theorem pth_fold_general (fs : FS) (sd : Path) :
    ∀ (ls : List String) (acc : List Path),
      ls.foldl
        (fun acc line =>
          if strIsEmpty (strTrim line) || strStarts (strTrim line) "#" then acc
          else
            if isdir fs (normpath (joinPath sd (strTrim line)))
            then acc ++ [normpath (joinPath sd (strTrim line))] else acc)
        acc = acc ++ ls.filterMap (keepLine fs sd) := by
  intro ls
  induction ls with
  | nil => intro acc; simp
  | cons l ls' ih =>
    intro acc
    rw [List.foldl_cons, List.filterMap_cons]
    by_cases h1 : (strIsEmpty (strTrim l) || strStarts (strTrim l) "#") = true
    · have hk : keepLine fs sd l = none := by
        unfold keepLine
        rw [if_pos h1]
      rw [if_pos h1, hk, ih]
    · have h1' : (strIsEmpty (strTrim l) || strStarts (strTrim l) "#") = false := by
        cases hb : (strIsEmpty (strTrim l) || strStarts (strTrim l) "#")
        · rfl
        · exact absurd hb h1
      by_cases h2 : isdir fs (normpath (joinPath sd (strTrim l))) = true
      · have hk : keepLine fs sd l = some (normpath (joinPath sd (strTrim l))) := by
          unfold keepLine
          rw [if_neg h1, if_pos h2]
        rw [if_neg h1, if_pos h2, hk, ih]
        simp
      · have h2' : isdir fs (normpath (joinPath sd (strTrim l))) = false := by
          cases hb : isdir fs (normpath (joinPath sd (strTrim l)))
          · rfl
          · exact absurd hb h2
        have hk : keepLine fs sd l = none := by
          unfold keepLine
          rw [if_neg h1, if_neg h2]
        rw [if_neg h1, if_neg h2, hk, ih]

theorem pth_roots_of_eq_spec (fs : FS) (sd : Path) (ls : List String) :
    pth_roots_of fs sd ls = pthRootsSpec fs sd ls := by
  unfold pth_roots_of pthRootsSpec
  simpa using pth_fold_general fs sd ls []

theorem count_filterMap (f : String → Option Path) (r : Path) :
    ∀ ls : List String, (ls.filterMap f).count r = ls.countP (fun a => f a == some r) := by
  intro ls
  induction ls with
  | nil => rfl
  | cons a ls' ih =>
    rw [List.filterMap_cons, List.countP_cons]
    rcases hf : f a with _ | b
    · simpa using ih
    · rw [List.count_cons, ih]
      have hp : ((some b : Option Path) == some r) = (b == r) := rfl
      rw [hp]

/-! ### The claims -/

/-- Claim C1: for every ordered root list, when a relative stub path exists
(as a walked `.pyi` entry) under a root and under none of the earlier roots,
the index-build pass stores exactly that root's copy — the absolute path
obtained by extending that root with the relative path — and no copy from
any later root is ever stored under that key. -/
theorem c1_first_root_wins {fs : FS} {pre post : List Path} {root rel : Path}
    (hpre : ∀ r ∈ pre, (r ++ rel) ∉ walkPyi fs r)
    (hmem : (root ++ rel) ∈ walkPyi fs root) :
    alook (pyi_sources fs (pre ++ root :: post)) rel = some (root ++ rel) ∧
      ∀ ab, (rel, ab) ∈ pyi_sources fs (pre ++ root :: post) → ab = root ++ rel := by
  have h1 := @pyi_sources_first fs pre post root rel hpre hmem
  refine ⟨h1, ?_⟩
  intro ab hab
  exact pyi_sources_uniq rel ab (root ++ rel) hab (mem_of_alook_some h1)

/-- Witness for C1 on an explicit state: `r0` lacks the stub, `r1` and `r2`
both have `pkg/x.pyi`; with root order `r0, r1, r2` the index keeps the copy under `r1`
copy. -/
theorem c1_first_root_wins_witness :
    (∀ r ∈ [(["r0"] : Path)], (r ++ ["pkg", "x.pyi"]) ∉ walkPyi dupStubFS r) ∧
    (["r1"] ++ ["pkg", "x.pyi"]) ∈ walkPyi dupStubFS ["r1"] ∧
    (alook (pyi_sources dupStubFS ([["r0"]] ++ ["r1"] :: [["r2"]])) ["pkg", "x.pyi"] =
        some (["r1"] ++ ["pkg", "x.pyi"]) ∧
      ∀ ab, (["pkg", "x.pyi"], ab) ∈ pyi_sources dupStubFS ([["r0"]] ++ ["r1"] :: [["r2"]]) →
        ab = ["r1"] ++ ["pkg", "x.pyi"]) :=
  ⟨by decide, by decide, c1_first_root_wins (by decide) (by decide)⟩

/-- Claim C4: a root already holding any entry at the relative stub path —
regular file, directory, or symlink, broken or not — keeps that entry
untouched through the synthesis pass, and no symlink-creation is ever
logged at that path. -/
theorem c4_preexisting_entry_preserved {fs : FS} (ts : List Task)
    {root rel : Path} {v : Entry} (h : fs.lookup (root ++ rel) = some v) :
    (runTasks fs ts).1.lookup (root ++ rel) = some v ∧
      ∀ tgt, Op.symlinkOp (root ++ rel) tgt ∉ (runTasks fs ts).2.1 :=
  runTasks_preserves ts fs h

/-- Witness for C4 on an explicit state: the stub already present under `r1`
is untouched by the full synthesis run over `envFS`. -/
theorem c4_preexisting_entry_preserved_witness :
    envFS.lookup (["r1"] ++ ["pkg", "x.pyi"]) = some (.file ["stub"]) ∧
    ((runTasks envFS envTasks).1.lookup (["r1"] ++ ["pkg", "x.pyi"]) =
        some (.file ["stub"]) ∧
      ∀ tgt, Op.symlinkOp (["r1"] ++ ["pkg", "x.pyi"]) tgt ∉ (runTasks envFS envTasks).2.1) :=
  ⟨by decide, c4_preexisting_entry_preserved envTasks (by decide)⟩

/-- Claim C8: in the reference behavior, the first failing placement aborts
the run — running the pass over the tasks up to and including the failing
one already yields the final state, log, and reported failure, and any
tasks after the failing one are never attempted. -/
theorem c8_error_aborts {fs : FS} {ts1 : List Task} {t : Task} (ts2 : List Task)
    (h : (runTasks fs ts1).2.2 = some t) :
    runTasks fs (ts1 ++ ts2) = runTasks fs ts1 :=
  runTasks_append_of_err ts1 fs ts2 h

/-- Witness for C8 on an explicit state: the placement at the broken stub
link fails, and appending a placement that would succeed changes nothing. -/
theorem c8_error_aborts_witness :
    (runTasks abortFS [abortTask]).2.2 = some abortTask ∧
    runTasks abortFS ([abortTask] ++ [laterTask]) = runTasks abortFS [abortTask] :=
  ⟨by decide, @c8_error_aborts abortFS [abortTask] abortTask [laterTask] (by decide)⟩

/-- Claim C5 fails as stated: at a destination that is a plain directory the
link step does not remove the entry and create a fresh symlink — `unlink`
cannot remove a directory, so the step fails with an error and the directory
is left in place. -/
theorem c5_counterexample :
    dirDestFS.lookup ["dst"] = some Entry.dir ∧
      dirDestFS.lookup ["home"] = some Entry.dir ∧
      link_main dirDestFS ["dst"] ["home"] = none := by
  refine ⟨rfl, rfl, ?_⟩
  rfl

/-- Claim C5 (amended): given an existing environment home directory, when
the entry at the destination is not a directory the link step is check-then-
replace — a symlink already storing the home is left alone with no
mutation, and anything else (file, symlink, broken symlink, or nothing) is
replaced by (unlink when present, then) a fresh symlink to the home,
touching no other path. A directory at the destination instead makes the
step fail with no mutation. -/
theorem c5_amended {fs : FS} {dest home : Path} (hhome : fs.lookup home = some .dir)
    (hch : CleanP home) (hnd : fs.lookup dest ≠ some Entry.dir) :
    (fs.lookup dest = some (.symlink (.abs home)) → link_main fs dest home = some (fs, [])) ∧
    (fs.lookup dest ≠ some (.symlink (.abs home)) →
      ∃ fs1, link_main fs dest home = some (fs1,
          (if fs.lexists dest then [Op.unlinkOp dest] else []) ++
            [Op.symlinkOp dest (.abs home)]) ∧
        fs1.lookup dest = some (.symlink (.abs home)) ∧
        ∀ q, q ≠ dest → fs1.lookup q = fs.lookup q) := by
  constructor
  · intro h
    have hdest : linkDest dest (.abs home) = home := by
      unfold linkDest
      exact normpath_clean home hch
    have hstat : fs.stat dest = some .dir := by
      refine stat_symlink_resolved h ?_ (by intro t' hc; cases hc)
      rw [hdest]
      exact hhome
    have hex : pathExists fs dest = true := by
      unfold pathExists
      rw [hstat]
      rfl
    have hbeq : (fs.lookup dest == some (Entry.symlink (.abs home))) = true := by
      rw [h]
      simp
    unfold link_main
    rw [hex, hbeq]
    rfl
  · intro h2
    have hbeq : (fs.lookup dest == some (Entry.symlink (.abs home))) = false := by
      cases hb : (fs.lookup dest == some (Entry.symlink (.abs home)))
      · rfl
      · exfalso
        apply h2
        simpa using hb
    rcases hl : fs.lookup dest with _ | e
    · refine ⟨fs.insert dest (.symlink (.abs home)), ?_, lookup_insert _ _ _, ?_⟩
      · unfold link_main
        rw [hbeq, Bool.and_false, if_neg (by simp), hl]
        have hlex : fs.lexists dest = false := by
          unfold FS.lexists
          rw [hl]
          rfl
        rw [hlex]
        rfl
      · intro q hq
        exact lookup_insert_ne _ _ hq
    · have hlex : fs.lexists dest = true := by
        unfold FS.lexists
        rw [hl]
        rfl
      cases e with
      | dir => exact absurd hl hnd
      | file c =>
        refine ⟨(fs.erase dest).insert dest (.symlink (.abs home)), ?_, lookup_insert _ _ _, ?_⟩
        · unfold link_main
          rw [hbeq, Bool.and_false, if_neg (by simp), hl, hlex]
          rfl
        · intro q hq
          rw [lookup_insert_ne _ _ hq, lookup_erase_ne _ hq]
      | symlink t =>
        refine ⟨(fs.erase dest).insert dest (.symlink (.abs home)), ?_, lookup_insert _ _ _, ?_⟩
        · unfold link_main
          rw [hbeq, Bool.and_false, if_neg (by simp), hl, hlex]
          rfl
        · intro q hq
          rw [lookup_insert_ne _ _ hq, lookup_erase_ne _ hq]

/-- Witness for the amended C5 on an explicit state: no entry at the
destination, so a single fresh symlink to the home is created. -/
theorem c5_amended_witness :
    homeOnlyFS.lookup ["home"] = some Entry.dir ∧
    homeOnlyFS.lookup ["d"] ≠ some Entry.dir ∧
    ((homeOnlyFS.lookup ["d"] = some (.symlink (.abs ["home"])) →
        link_main homeOnlyFS ["d"] ["home"] = some (homeOnlyFS, [])) ∧
      (homeOnlyFS.lookup ["d"] ≠ some (.symlink (.abs ["home"])) →
        ∃ fs1, link_main homeOnlyFS ["d"] ["home"] = some (fs1,
            (if homeOnlyFS.lexists ["d"] then [Op.unlinkOp ["d"]] else []) ++
              [Op.symlinkOp ["d"] (.abs ["home"])]) ∧
          fs1.lookup ["d"] = some (.symlink (.abs ["home"])) ∧
          ∀ q, q ≠ ["d"] → fs1.lookup q = homeOnlyFS.lookup q)) :=
  ⟨by decide, by decide, c5_amended (by decide) (by decide) (by decide)⟩

/-- Claim C6: when no package-installation directory matches beneath the
home, or the site-configuration file is absent (or not a regular file), or
no configured line resolves to an existing directory, colocation returns
with the state unchanged, an empty mutation log, and no reported error. -/
theorem c6_absence_is_quiet {fs : FS} {home : Path}
    (h : site_dirs_of fs home = [] ∨
      (∃ d rest, site_dirs_of fs home = d :: rest ∧
        ∀ ls, fs.stat (d ++ ["_aspect.pth"]) ≠ some (.file ls)) ∨
      (∃ d rest ls, site_dirs_of fs home = d :: rest ∧
        fs.stat (d ++ ["_aspect.pth"]) = some (.file ls) ∧
        pth_roots_of fs d ls = [])) :
    colocate_pyi_stubs fs home = (fs, [], none) := by
  rcases h with h1 | ⟨d, rest, hd, hpth⟩ | ⟨d, rest, ls, hd, hpth, hroots⟩
  · unfold colocate_pyi_stubs
    rw [h1]
  · unfold colocate_pyi_stubs
    rw [hd]
    show colocateAt fs d = (fs, [], none)
    unfold colocateAt
    rcases hs : fs.stat (d ++ ["_aspect.pth"]) with _ | e
    · rfl
    · cases e with
      | file ls => exact absurd hs (hpth ls)
      | dir => rfl
      | symlink t => rfl
  · unfold colocate_pyi_stubs
    rw [hd]
    show colocateAt fs d = (fs, [], none)
    unfold colocateAt
    rw [hpth]
    show (if (pth_roots_of fs d ls).isEmpty = true then ((fs, [], none) : FS × List Op × Option Task)
      else runTasks fs
        (tasksOf (pyi_sources fs (pth_roots_of fs d ls)) (pth_roots_of fs d ls))) = (fs, [], none)
    rw [hroots]
    rfl

/-- Witness for C6 on an explicit state: the empty filesystem has no
matching package-installation directory, and colocation does nothing. -/
theorem c6_absence_is_quiet_witness :
    site_dirs_of emptyFS ["venv"] = [] ∧
      colocate_pyi_stubs emptyFS ["venv"] = (emptyFS, [], none) :=
  ⟨by decide, c6_absence_is_quiet (Or.inl (by decide))⟩

/-- Claim C7: the resolver treats each non-blank, non-comment line as a path
joined to the site directory and normalised lexically, keeps it exactly when
it is currently a directory, drops everything else silently, and emits the
kept directories in line order — the imperative loop equals the declarative
per-line description. -/
theorem c7_line_resolution (fs : FS) (sd : Path) (ls : List String) :
    pth_roots_of fs sd ls = pthRootsSpec fs sd ls :=
  pth_roots_of_eq_spec fs sd ls

/-- Claim C9 fails as stated: the resolver output is not deduplicated — a
`.pth` file naming the same existing directory on two lines produces that
directory twice. -/
theorem c9_counterexample :
    pth_roots_of dupFS ["sp"] ["sub", "sub"] = [["sp", "sub"], ["sp", "sub"]] ∧
      ¬ (pth_roots_of dupFS ["sp"] ["sub", "sub"]).Nodup := by
  have he : pth_roots_of dupFS ["sp"] ["sub", "sub"] = [["sp", "sub"], ["sp", "sub"]] := by
    decide
  refine ⟨he, ?_⟩
  rw [he]
  simp

/-- Claim C9 (amended): the root list is not deduplicated; it has one
occurrence per kept line, in line order, so a path named by several kept
lines appears once for each of them. -/
theorem c9_amended (fs : FS) (sd : Path) (ls : List String) (r : Path) :
    (pth_roots_of fs sd ls).count r =
      ls.countP (fun line => keepLine fs sd line == some r) := by
  rw [pth_roots_of_eq_spec]
  exact count_filterMap (keepLine fs sd) r ls

/-- Claim C10: when several directories beneath the home match the
version-wildcarded pattern, the pipeline runs entirely from the first match
in enumeration order; the rest of the match list is never consulted. -/
theorem c10_first_site_dir {fs : FS} {home d : Path} {rest : List Path}
    (h : site_dirs_of fs home = d :: rest) :
    colocate_pyi_stubs fs home = colocateAt fs d := by
  unfold colocate_pyi_stubs
  rw [h]

/-- Witness for C10 on an explicit state with two matching site directories:
only the first (which has no site-configuration file) is consulted, so the
`.pth` file under the second is ignored. -/
theorem c10_first_site_dir_witness :
    site_dirs_of twoSiteFS ["venv"] =
      [["venv", "lib", "python3.10", "site-packages"],
        ["venv", "lib", "python3.11", "site-packages"]] ∧
    colocate_pyi_stubs twoSiteFS ["venv"] =
      colocateAt twoSiteFS ["venv", "lib", "python3.10", "site-packages"] :=
  ⟨by decide,
    @c10_first_site_dir twoSiteFS ["venv"] ["venv", "lib", "python3.10", "site-packages"]
      [["venv", "lib", "python3.11", "site-packages"]] (by decide)⟩

/-- Claim C2 fails as stated: with nested roots (`a` strictly contains
`a/b`), the pass completes, root `a/b` had the source `x.py` and no entry at
`x.pyi`, the index maps `x.pyi` to the copy under `r0` — yet the symlink synthesised
at `a/b/x.pyi` (placed earlier for root `a` under its own relative path)
resolves to the copy under `r1` copy, not to the indexed source. -/
theorem c2_counterexample :
    (["x.pyi"], ["r0", "x.pyi"]) ∈ pyi_sources nestFS nestRoots ∧
    nestFS.lookup (["a", "b"] ++ relPyOf ["x.pyi"]) = some (.file []) ∧
    nestFS.lookup (["a", "b"] ++ ["x.pyi"]) = none ∧
    (runTasks nestFS nestTasks).2.2 = none ∧
    (runTasks nestFS nestTasks).1.lookup (["a", "b"] ++ ["x.pyi"]) =
      some (.symlink (.rel ["..", "..", "r1", "b", "x.pyi"])) ∧
    normpath ((["a", "b"] ++ ["x.pyi"]).dropLast ++ ["..", "..", "r1", "b", "x.pyi"]) =
      ["r1", "b", "x.pyi"] ∧
    (["r1", "b", "x.pyi"] : Path) ≠ ["r0", "x.pyi"] := by
  decide

/-- Claim C2 (amended): over clean paths and roots none of which contains
another, after a synthesis pass that completes without error, every root
that held a regular file at the sibling source path and no entry at the
relative stub path now holds a symlink there whose stored target is
relative to the directory containing it and resolves, in one hop, to the
indexed absolute stub source. -/
theorem c2_amended {fs : FS} {roots : List Path} {rel ab root : Path} {c : List String}
    (hcfs : CleanFS fs) (hcr : ∀ r ∈ roots, CleanP r) (hnn : NoNest roots)
    (hidx : (rel, ab) ∈ pyi_sources fs roots) (hroot : root ∈ roots)
    (hpy : fs.lookup (root ++ relPyOf rel) = some (.file c))
    (hnone : fs.lookup (root ++ rel) = none)
    (hok : (runTasks fs (tasksOf (pyi_sources fs roots) roots)).2.2 = none) :
    (runTasks fs (tasksOf (pyi_sources fs roots) roots)).1.lookup (root ++ rel) =
      some (.symlink (.rel (relpathSegs ab (root ++ rel).dropLast))) ∧
    normpath ((root ++ rel).dropLast ++ relpathSegs ab (root ++ rel).dropLast) = ab := by
  obtain ⟨r', hr', hab, hrelne, hpyi, ev, habmem, hnd⟩ := sources_shape hidx
  have hcab : CleanP ab := hcfs (ab, ev) habmem
  have hcrel : CleanP rel := by
    intro s hs
    apply hcab
    rw [hab]
    exact List.mem_append.mpr (Or.inr hs)
  have hcp : CleanP (root ++ rel) := cleanP_append (hcr root hroot) hcrel
  constructor
  · have hmem : (⟨rel, ab, root⟩ : Task) ∈ tasksOf (pyi_sources fs roots) roots :=
      tasksOf_mem_iff.mpr ⟨(rel, ab), hidx, root, hroot, rfl⟩
    refine run_creates _ fs hok hmem ?_ ?_ hpy hnone
    · intro t ht htrel htroot
      obtain ⟨e, he, r, hr, hteq⟩ := tasksOf_mem_iff.mp ht
      subst hteq
      have hrel1 : e.1 = rel := htrel
      refine pyi_sources_uniq e.1 e.2 ab he ?_
      rw [hrel1]
      exact hidx
    · intro t ht hteq2
      obtain ⟨e, he, r, hr, hteq⟩ := tasksOf_mem_iff.mp ht
      subst hteq
      have heq : r ++ e.1 = root ++ rel := hteq2
      have hinj := append_inj_of_nonest hnn hr hroot heq
      exact ⟨hinj.2, hinj.1⟩
  · exact relpath_resolves hcab (cleanP_dropLast hcp)

/-- Witness for the amended C2 on an explicit state: root `r2` has
`pkg/x.py` but no stub; after the pass it holds a relative symlink
resolving in one hop to the copy under `r1` indexed stub. -/
theorem c2_amended_witness :
    CleanFS envFS ∧ NoNest envRoots ∧
    (["pkg", "x.pyi"], ["r1", "pkg", "x.pyi"]) ∈ pyi_sources envFS envRoots ∧
    envFS.lookup (["r2"] ++ relPyOf ["pkg", "x.pyi"]) = some (.file []) ∧
    envFS.lookup (["r2"] ++ ["pkg", "x.pyi"]) = none ∧
    ((runTasks envFS (tasksOf (pyi_sources envFS envRoots) envRoots)).1.lookup
        (["r2"] ++ ["pkg", "x.pyi"]) =
      some (.symlink (.rel (relpathSegs ["r1", "pkg", "x.pyi"]
        (["r2"] ++ ["pkg", "x.pyi"]).dropLast))) ∧
    normpath ((["r2"] ++ ["pkg", "x.pyi"]).dropLast ++
        relpathSegs ["r1", "pkg", "x.pyi"] (["r2"] ++ ["pkg", "x.pyi"]).dropLast) =
      ["r1", "pkg", "x.pyi"]) :=
  ⟨by decide, by decide, by decide, by decide, by decide,
    @c2_amended envFS envRoots ["pkg", "x.pyi"] ["r1", "pkg", "x.pyi"] ["r2"] []
      (by decide) (by decide) (by decide) (by decide) (by decide)
      (by decide) (by decide) (by decide)⟩

/-- Claim C3 fails as stated: starting from a state where `r1/a.py` is a
broken symlink aimed at the not-yet-existing `r1/b.pyi`, the first
synthesis run completes (creating `r1/b.pyi`), and a second run over the
same placements is not a no-op — the repaired `a.py` now passes the
source-file check, so the second run creates `r1/a.pyi`. -/
theorem c3_counterexample :
    (runTasks brokenFS brokenTasks).2.2 = none ∧
    runTasks (runTasks brokenFS brokenTasks).1 brokenTasks ≠
      ((runTasks brokenFS brokenTasks).1, [], none) ∧
    (runTasks (runTasks brokenFS brokenTasks).1 brokenTasks).2.1 =
      [Op.symlinkOp ["r1", "a.pyi"] (.rel ["..", "r2", "a.pyi"])] := by
  decide

/-- Claim C3 (amended): when the filesystem under the roots is clean, free
of pre-existing symlinks, and stores one entry per path, the first
synthesis run over the index built from that state completes without
error, and running the same pass again mutates nothing — it returns the
same state, an empty mutation log, and no error. -/
theorem c3_amended {fs : FS} {roots : List Path}
    (hcfs : CleanFS fs) (hsf : SymFree fs) (huk : UniqKeys fs)
    (hcr : ∀ r ∈ roots, CleanP r) :
    (runTasks fs (tasksOf (pyi_sources fs roots) roots)).2.2 = none ∧
    runTasks (runTasks fs (tasksOf (pyi_sources fs roots) roots)).1
        (tasksOf (pyi_sources fs roots) roots) =
      ((runTasks fs (tasksOf (pyi_sources fs roots) roots)).1, [], none) := by
  have htok := tasksOk_of_sources hsf hcfs huk hcr
  obtain ⟨hs, _, hdone⟩ :=
    run1_main hsf (tasksOf (pyi_sources fs roots) roots) fs (inv_refl fs) htok
  exact ⟨hs, run_noop _ _ hdone⟩

/-- Witness for the amended C3 on an explicit state: over `envFS` the first
run completes and the second run is exactly the identity. -/
theorem c3_amended_witness :
    CleanFS envFS ∧ SymFree envFS ∧ UniqKeys envFS ∧
    ((runTasks envFS (tasksOf (pyi_sources envFS envRoots) envRoots)).2.2 = none ∧
    runTasks (runTasks envFS (tasksOf (pyi_sources envFS envRoots) envRoots)).1
        (tasksOf (pyi_sources envFS envRoots) envRoots) =
      ((runTasks envFS (tasksOf (pyi_sources envFS envRoots) envRoots)).1, [], none)) :=
  ⟨by decide, by decide, by decide,
    c3_amended (by decide) (by decide) (by decide) (by decide)⟩

end RulesPy
